import Mathlib

/-!
Verification development for the greenlight HTTP API server
(concurrency-and-resilience control layer and surrounding helpers).

Conventions of the embedding:
* Go strings are modelled as `List Char`.
* Go `float64` quantities (token counts, rates, timestamps in seconds) are
  modelled as exact rationals `ℚ`.
* Go machine integers are modelled as `Int` (with explicit range conditions
  where 32-bit width matters).
* Fallible Go code returning `(T, error)` is modelled as `Option T`, where
  `none` stands for the single error value the function can produce.
-/

namespace Greenlight

/-! ## Token bucket (spec §3, §4.1, §4.2)

The rate-limiter middleware is not part of the source tree of this snapshot
(only `main` parses its configuration), so the bucket is modelled from the
spec.  -/

/-- Verdict of an admission attempt. -/
inductive Verdict where
  | allowed
  | denied
deriving DecidableEq, Repr

/-- Modelled from the spec: TokenBucket with fixed `capacity` and
`refillRate` (tokens/second), mutable `tokens ∈ [0, capacity]` and
`lastRefill` timestamp (seconds). -/
structure TokenBucket where
  capacity : ℚ
  refillRate : ℚ
  tokens : ℚ
  lastRefill : ℚ
deriving DecidableEq, Repr

/-- Modelled from the spec: lazy continuous refill —
`min(capacity, tokens + elapsed*refillRate)`. -/
def TokenBucket.refill (b : TokenBucket) (now : ℚ) : ℚ :=
  min b.capacity (b.tokens + (now - b.lastRefill) * b.refillRate)

/-- Modelled from the spec: `tryConsume(now)` recomputes the decayed token
count; if it is ≥ 1 it consumes one token and returns *allowed*, otherwise it
persists the decayed (unconsumed) state and returns *denied*.  `lastRefill`
is advanced to `now` in both branches. -/
def TokenBucket.tryConsume (b : TokenBucket) (now : ℚ) : Verdict × TokenBucket :=
  let t := b.refill now
  if 1 ≤ t then
    (Verdict.allowed, { b with tokens := t - 1, lastRefill := now })
  else
    (Verdict.denied, { b with tokens := t, lastRefill := now })

/-- Run a sequence of consume attempts (one per timestamp, in order),
collecting the verdicts and the final bucket state. -/
def TokenBucket.runConsume (b : TokenBucket) : List ℚ → List Verdict × TokenBucket
  | [] => ([], b)
  | now :: rest =>
    let (v, b') := b.tryConsume now
    let (vs, bEnd) := b'.runConsume rest
    (v :: vs, bEnd)

/-- A fresh full bucket, as seeded by the registry on first sight of an
identity. -/
def freshBucket (capacity refillRate now : ℚ) : TokenBucket :=
  { capacity := capacity, refillRate := refillRate, tokens := capacity, lastRefill := now }

/-! ## Optimistic concurrency guard (spec §4.5)

The `MovieModel.Update` conditional write is not part of this source
snapshot; only the outcome sentinels `ErrEditConflict` and
`ErrRecordNotFound` are declared (internal/data/models.go).  The conditional
write is therefore modelled from the spec. -/

/-- Outcome of a conditional write, mirroring the error sentinels of
internal/data/models.go: success carries the updated record. -/
inductive WriteOutcome (α : Type) where
  | success (updated : α)
  | editConflict
  | recordNotFound
deriving DecidableEq, Repr

/-- A versioned record: domain payload plus the integer version stamp. -/
structure VersionedRecord where
  payload : String
  version : Int
deriving DecidableEq, Repr

/-- Storage keyed by record id, modelled as an association list. -/
def Store := List (Int × VersionedRecord)

/-- Look up a record by id. -/
def Store.lookup (st : Store) (id : Int) : Option VersionedRecord :=
  match st with
  | [] => none
  | (k, r) :: rest => if k = id then some r else Store.lookup rest id

/-- Replace the record stored under `id`. -/
def Store.setRecord (st : Store) (id : Int) (r : VersionedRecord) : Store :=
  match st with
  | [] => []
  | (k, r₀) :: rest =>
    if k = id then (k, r) :: rest else (k, r₀) :: Store.setRecord rest id r

/-- Modelled from the spec: the storage-level conditional write.  It
atomically compares the caller-supplied expected version with the stored
version: on match it installs the new payload with the version incremented
by exactly 1; on mismatch it mutates nothing and signals a conflict; on a
missing record it signals not-found. -/
def conditionalWrite (st : Store) (id : Int) (expectedVersion : Int)
    (newPayload : String) : WriteOutcome VersionedRecord × Store :=
  match Store.lookup st id with
  | none => (WriteOutcome.recordNotFound, st)
  | some r =>
    if r.version = expectedVersion then
      let r' : VersionedRecord := { payload := newPayload, version := r.version + 1 }
      (WriteOutcome.success r', Store.setRecord st id r')
    else
      (WriteOutcome.editConflict, st)

/-! ## HTTP request handling (cmd/api)

Requests, responses and middleware are embedded as functions; each
application handler additionally records, as an observable event, that it
ran, so that ordering properties of the middleware chain can be stated.
Handler bodies (JSON parsing, validation) are irrelevant to the
middleware-chain claims, so the composition `routes` is parameterised over
the three application handlers, exactly as the Go code closes over the
`application` receiver. -/

/-- An inbound HTTP request (the parts the routing layer inspects). -/
structure Request where
  method : String
  pathSegments : List String
  remoteAddr : String
deriving DecidableEq, Repr

/-- An HTTP response: status code and headers. -/
structure Response where
  status : Nat
  headers : List (String × String)
deriving DecidableEq, Repr

/-- Observable processing events, used to state in which order components
of the chain ran. -/
inductive Event where
  | admissionCheck
  | ranHandler (name : String)
deriving DecidableEq, Repr

/-- Outcome of invoking a handler: either it completes with a response, or
it raises an unrecoverable fault (a Go panic) carrying a message. -/
inductive HResult where
  | completes (resp : Response)
  | panics (msg : String)
deriving DecidableEq, Repr

/-- A handler maps a request to the events it emitted and its outcome. -/
def Handler := Request → List Event × HResult

/-- Modelled from the spec: `serverErrorResponse` (cmd/api/errors.go is not
in this snapshot) produces the generic 500-class server-fault response,
keeping whatever headers were already set on the response writer. -/
def serverErrorResponse (hdrs : List (String × String)) : Response :=
  { status := 500, headers := hdrs }

/-- Translated from cmd/api recoverPanic: on a panic the deferred recovery
sets the header `Connection: close` on the response writer and sends the
generic server-error response; a normal completion passes through
untouched.  The faulted handler is never resumed: the panic branch's
response is fixed, independent of the handler. -/
def recoverPanic (next : Handler) : Handler := fun req =>
  match next req with
  | (evs, HResult.completes resp) => (evs, HResult.completes resp)
  | (evs, HResult.panics _) =>
    (evs, HResult.completes (serverErrorResponse [("Connection", "close")]))

/-- Modelled from the spec: `notFoundResponse` sends a 404. -/
def notFoundResponse : Handler := fun _ => ([], HResult.completes { status := 404, headers := [] })

/-- Modelled from the spec: `methodNotAllowedResponse` sends a 405. -/
def methodNotAllowedResponse : Handler := fun _ =>
  ([], HResult.completes { status := 405, headers := [] })

/-- The three application handlers `routes` closes over. -/
structure AppHandlers where
  healthCheck : Handler
  createMovie : Handler
  showMovie : Handler

/-- Is the path registered with the router (under any method)?  Translated
from the three `router.HandlerFunc` registrations of cmd/api/routes.go. -/
def pathRegistered : List String → Bool
  | ["v1", "healthcheck"] => true
  | ["v1", "movies"] => true
  | ["v1", "movies", _] => true
  | _ => false

/-- Translated from cmd/api/routes.go: the router dispatches
GET /v1/healthcheck, POST /v1/movies and GET /v1/movies/:id to the
application handlers; other requests hit the configured NotFound or
MethodNotAllowed responders. -/
def routerDispatch (h : AppHandlers) : Handler := fun req =>
  match req.method, req.pathSegments with
  | "GET", ["v1", "healthcheck"] => h.healthCheck req
  | "POST", ["v1", "movies"] => h.createMovie req
  | "GET", ["v1", "movies", _] => h.showMovie req
  | _, _ =>
    if pathRegistered req.pathSegments then methodNotAllowedResponse req
    else notFoundResponse req

/-- Translated from cmd/api/routes.go: `routes` wraps the router in the
fault-containment wrapper and returns the composed handler
(`return app.recoverPanic(router)`). -/
def routes (h : AppHandlers) : Handler :=
  recoverPanic (routerDispatch h)

/-- Modelled from the spec: the Admission Gate middleware (not present in
this source snapshot).  It consults the client's token bucket before the
downstream handler; on *denied* it responds 429 without invoking the
downstream handler, on *allowed* it passes the request through.  The
admission decision is recorded as an event. -/
def rateLimitGate (bucket : TokenBucket) (now : ℚ) (next : Handler) : Handler := fun req =>
  match bucket.tryConsume now with
  | (Verdict.allowed, _) =>
    let r := next req
    (Event.admissionCheck :: r.1, r.2)
  | (Verdict.denied, _) =>
    ([Event.admissionCheck], HResult.completes { status := 429, headers := [] })

/-- Model instances of the application handlers: each records that it ran
and completes normally (their request-processing bodies are irrelevant to
the chain-composition claims). -/
def appHandlersModel : AppHandlers where
  healthCheck := fun _ =>
    ([Event.ranHandler "healthCheck"], HResult.completes { status := 200, headers := [] })
  createMovie := fun _ =>
    ([Event.ranHandler "createMovie"], HResult.completes { status := 200, headers := [] })
  showMovie := fun _ =>
    ([Event.ranHandler "showMovie"], HResult.completes { status := 200, headers := [] })

/-- A handler that always faults, for exercising the containment wrapper. -/
def panickingHandler : Handler := fun _ => ([], HResult.panics "boom")

/-- A concrete healthcheck request. -/
def healthReq : Request :=
  { method := "GET", pathSegments := ["v1", "healthcheck"], remoteAddr := "1.2.3.4" }

/-- A client bucket with no tokens left (capacity 4, rate 2). -/
def emptyBucket : TokenBucket :=
  { capacity := 4, refillRate := 2, tokens := 0, lastRefill := 0 }

/-! ## Configuration surface (cmd/api main.go) -/

/-- Translated from the `limiter` section of the `config` struct in
cmd/api main.go: its complete list of fields. -/
def limiterConfigFields : List String := ["rps", "burst", "enabled"]

/-- Translated from `main()` in cmd/api main.go: the complete list of
command-line flag names registered before `flag.Parse()`. -/
def registeredFlagNames : List String :=
  ["port", "env", "db-dsn", "db-max-open-conns", "db-max-idle-conns", "db-max-idle-time",
    "limiter-rps", "limiter-burst", "limiter-enabled",
    "stmp-host", "stmp-port", "stmp-username", "stmp-password", "stmp-sender",
    "cors-trusted-origins", "version"]

/-! ## Listing filters and pagination (internal/data/filters.go) -/

/-- Translated from the `Filters` struct: sort strings are modelled as
`List Char`. -/
structure Filters where
  page : Int
  pageSize : Int
  sort : List Char
  sortSafeList : List (List Char)
deriving DecidableEq, Repr

/-- Translated from the `Metadata` struct (all fields Go `int`). -/
structure Metadata where
  currentPage : Int
  pageSize : Int
  firstPage : Int
  lastPage : Int
  totalRecords : Int
deriving DecidableEq, Repr

/-- Modelled from the validator collaborator (internal/validator is not in
this snapshot): a validator accumulates the keys of failed checks;
`check cond key` records `key` exactly when `cond` is false, and the
validator is valid when no key was recorded. -/
def Validator := List String

/-- Record `key` when `cond` fails. -/
def Validator.check (v : Validator) (cond : Bool) (key : String) : Validator :=
  if cond then v else key :: v

/-- A validator with no recorded errors is valid. -/
def Validator.isValid (v : Validator) : Bool := v.isEmpty

/-- `validator.PermittedValue`: membership of the value in the permitted
list. -/
def permittedValue (value : List Char) (list : List (List Char)) : Bool :=
  list.contains value

/-- Translated from `ValidateFilters`: page within 1..10,000,000, page
size within 1..100, sort contained in the safe list. -/
def validateFilters (v : Validator) (f : Filters) : Validator :=
  let v₁ := v.check (decide (1 ≤ f.page ∧ f.page ≤ 10000000)) "page"
  let v₂ := v₁.check (decide (1 ≤ f.pageSize ∧ f.pageSize ≤ 100)) "page_size"
  v₂.check (permittedValue f.sort f.sortSafeList) "sort"

/-- `strings.TrimPrefix(s, "-")`: drop a single leading dash when
present. -/
def trimDash : List Char → List Char
  | '-' :: rest => rest
  | s => s

/-- Translated from `Filters.sortColumn`: scan the safe list and, on the
first match with the sort value, return it with a leading dash trimmed;
`none` models the `panic("unsafe sort parameter")` fall-through. -/
def sortColumnLoop (sort : List Char) : List (List Char) → Option (List Char)
  | [] => none
  | safe :: rest => if sort = safe then some (trimDash sort) else sortColumnLoop sort rest

/-- `Filters.sortColumn` over the receiver's fields. -/
def Filters.sortColumn (f : Filters) : Option (List Char) :=
  sortColumnLoop f.sort f.sortSafeList

/-- Translated from `Filters.sortDirection`: `DESC` when the sort value
starts with a dash (`strings.HasPrefix(f.Sort, "-")`), `ASC` otherwise. -/
def Filters.sortDirection (f : Filters) : List Char :=
  match f.sort with
  | '-' :: _ => "DESC".data
  | _ => "ASC".data

/-! ### IEEE-754 binary64 arithmetic model

`calculateMetaData` computes `int(math.Ceil(float64(t) / float64(s)))`:
the two int-to-float64 conversions and the division each round their
exact value to the nearest binary64 number (ties to even).  Binary64
values are represented here as the exact rationals they denote, and the
rounding step is modelled exactly.  Overflow and subnormal thresholds are
unreachable at the magnitudes these integer inputs produce and are not
modelled; `math.Ceil` of a binary64 value and the final int conversion
are exact at these magnitudes (every ceiling of a binary64 below 2^63 is
itself representable), so both are the mathematical ceiling. -/

/-- Number of binary digits of a natural number, structured on a fuel
argument (`fuel > n` always suffices) so that it evaluates by kernel
reduction; `bitLenF _ 0 = 0`. -/
def bitLenF : Nat → Nat → Nat
  | 0, _ => 0
  | f + 1, n => if n = 0 then 0 else bitLenF f (n / 2) + 1

/-- Number of binary digits: `2 ^ (bitLen n - 1) ≤ n < 2 ^ bitLen n` for
positive `n`. -/
def bitLen (n : Nat) : Nat := bitLenF (n + 1) n

/-- The binade exponent of a positive rational: the unique `e` with
`2 ^ e ≤ v < 2 ^ (e + 1)`, computed from the digit counts of numerator
and denominator. -/
def floorLog2 (v : ℚ) : Int :=
  let e₀ : Int := (bitLen v.num.toNat : Int) - (bitLen v.den : Int)
  if (2 : ℚ) ^ e₀ ≤ v then e₀ else e₀ - 1

/-- Round `v` to the nearest integer multiple of `2 ^ g`, ties to the
even multiple. -/
def roundNearestEven (v : ℚ) (g : Int) : ℚ :=
  let s : ℚ := v * (2 : ℚ) ^ (-g)
  let n : Int := ⌊s⌋
  let m : Int :=
    if s - n < 1 / 2 then n
    else if 1 / 2 < s - n then n + 1
    else if n % 2 = 0 then n else n + 1
  (m : ℚ) * (2 : ℚ) ^ g

/-- Round an exact rational to the nearest binary64 value: the grid
spacing in the binade `[2^e, 2^(e+1))` is `2^(e-52)` (52 fraction bits),
and rounding is sign-symmetric. -/
def roundDouble (v : ℚ) : ℚ :=
  if v < 0 then -roundNearestEven (-v) (floorLog2 (-v) - 52)
  else if v = 0 then 0
  else roundNearestEven v (floorLog2 v - 52)

/-- Go float64 division: the exact rational quotient rounded to
binary64. -/
def float64Div (x y : ℚ) : ℚ := roundDouble (x / y)

/-- Translated from `calculateMetaData`: the zero `Metadata` for an empty
result set, otherwise the page geometry with
`LastPage = int(math.Ceil(float64(totalRecords) / float64(pageSize)))` —
both integers are rounded to binary64, their quotient is rounded to
binary64, and `math.Ceil` plus the int conversion (exact at these
magnitudes, see above) take the ceiling. -/
def calculateMetaData (totalRecords page pageSize : Int) : Metadata :=
  if totalRecords = 0 then
    { currentPage := 0, pageSize := 0, firstPage := 0, lastPage := 0, totalRecords := 0 }
  else
    { currentPage := page, pageSize := pageSize, firstPage := 1,
      lastPage :=
        ⌈float64Div (roundDouble (totalRecords : ℚ)) (roundDouble (pageSize : ℚ))⌉,
      totalRecords := totalRecords }

/-! ## Runtime JSON encoding (internal/data/runtime.go)

`Runtime` is a Go `int32`; it is modelled as `Int` together with explicit
32-bit range conditions.  The `strconv`/`strings` collaborators are
modelled over `List Char`. -/

/-- The double-quote character. -/
def dquote : Char := Char.ofNat 34

/-- The backslash character. -/
def bslash : Char := Char.ofNat 92

/-- The single-quote character. -/
def squote : Char := Char.ofNat 39

/-- The backquote character. -/
def bquote : Char := Char.ofNat 96

/-- Newline. -/
def nlChar : Char := Char.ofNat 10

/-- Carriage return. -/
def crChar : Char := Char.ofNat 13

/-- The decimal digit character for `d < 10`. -/
def digitCh (d : Nat) : Char := Char.ofNat (48 + d)

/-- Is `c` a decimal digit (Go `'0' <= c && c <= '9'`)? -/
def charIsDigit (c : Char) : Bool := 48 ≤ c.toNat && c.toNat ≤ 57

/-- Decimal digit string of a natural number, structured on a fuel
argument so that it evaluates by kernel reduction; `fuel > n` always
suffices since the argument shrinks by a factor of 10. -/
def natToCharsAux : Nat → Nat → List Char
  | 0, _ => []
  | fuel + 1, n =>
    if n < 10 then [digitCh n]
    else natToCharsAux fuel (n / 10) ++ [digitCh (n % 10)]

/-- Decimal digit string of a natural number (the digits `fmt %d`
produces). -/
def natToChars (n : Nat) : List Char := natToCharsAux (n + 1) n

/-- `fmt.Sprintf("%d", i)` for an integer: minus sign, then the decimal
digits of the magnitude. -/
def intToChars (i : Int) : List Char :=
  if i < 0 then '-' :: natToChars (-i).toNat else natToChars i.toNat

/-- `strconv.Quote` for the marshalled payload: the payload
`<digits> mins` consists of printable ASCII characters containing neither
a double quote nor a backslash, on which `strconv.Quote` adds no escapes
and only wraps in double quotes. -/
def goQuoteSimple (s : List Char) : List Char := dquote :: s ++ [dquote]

/-- Translated from runtime.go `Runtime.MarshalJSON`: format the value as
`<int32> mins` and quote it; the Go function never returns an error. -/
def marshalRuntime (r : Int) : List Char :=
  goQuoteSimple (intToChars r ++ ' ' :: "mins".data)

/-- Value of a hexadecimal digit character, if any. -/
def hexDigitVal (c : Char) : Option Nat :=
  if 48 ≤ c.toNat ∧ c.toNat ≤ 57 then some (c.toNat - 48)
  else if 97 ≤ c.toNat ∧ c.toNat ≤ 102 then some (c.toNat - 97 + 10)
  else if 65 ≤ c.toNat ∧ c.toNat ≤ 70 then some (c.toNat - 65 + 10)
  else none

/-- Value of an octal digit character, if any. -/
def octDigitVal (c : Char) : Option Nat :=
  if 48 ≤ c.toNat ∧ c.toNat ≤ 55 then some (c.toNat - 48) else none

/-- Translated from strconv `unquoteChar`, simple escapes: `\a \b \f \n
\r \t \v \\`, and an escaped quote character, which must match the
delimiter. -/
def simpleEscape (q e : Char) : Option Char :=
  if e = 'a' then some (Char.ofNat 7)
  else if e = 'b' then some (Char.ofNat 8)
  else if e = 'f' then some (Char.ofNat 12)
  else if e = 'n' then some nlChar
  else if e = 'r' then some crChar
  else if e = 't' then some (Char.ofNat 9)
  else if e = 'v' then some (Char.ofNat 11)
  else if e = bslash then some bslash
  else if e = squote ∨ e = dquote then (if e = q then some e else none)
  else none

/-- Translated from strconv `unquoteChar`, escape sequences after the
backslash: the single-character escapes, `\\x` with two hex digits, `\\u`
with four, `\\U` with eight (rejecting surrogate halves and values above
the maximum rune) and three-digit octal escapes up to 255; returns the
decoded character and the unconsumed suffix.  (`\\x` and octal escapes are
byte escapes in Go; values at or above 0x80 stand for raw bytes there,
modelled here as the scalar of the same value.) -/
def unqEscape (q : Char) : List Char → Option (Char × List Char)
  | [] => none
  | e :: cs =>
    if e = 'x' then
      match cs with
      | h1 :: h2 :: cs' =>
        match hexDigitVal h1, hexDigitVal h2 with
        | some d1, some d2 => some (Char.ofNat (16 * d1 + d2), cs')
        | _, _ => none
      | _ => none
    else if e = 'u' then
      match cs with
      | h1 :: h2 :: h3 :: h4 :: cs' =>
        match hexDigitVal h1, hexDigitVal h2, hexDigitVal h3, hexDigitVal h4 with
        | some d1, some d2, some d3, some d4 =>
          let v := ((d1 * 16 + d2) * 16 + d3) * 16 + d4
          if 55296 ≤ v ∧ v < 57344 then none else some (Char.ofNat v, cs')
        | _, _, _, _ => none
      | _ => none
    else if e = 'U' then
      match cs with
      | h1 :: h2 :: h3 :: h4 :: h5 :: h6 :: h7 :: h8 :: cs' =>
        match hexDigitVal h1, hexDigitVal h2, hexDigitVal h3, hexDigitVal h4,
            hexDigitVal h5, hexDigitVal h6, hexDigitVal h7, hexDigitVal h8 with
        | some d1, some d2, some d3, some d4, some d5, some d6, some d7, some d8 =>
          let v := ((((((d1 * 16 + d2) * 16 + d3) * 16 + d4) * 16 + d5) * 16 + d6)
            * 16 + d7) * 16 + d8
          if 1114111 < v ∨ (55296 ≤ v ∧ v < 57344) then none
          else some (Char.ofNat v, cs')
        | _, _, _, _, _, _, _, _ => none
      | _ => none
    else
      match octDigitVal e with
      | some o1 =>
        match cs with
        | o2c :: o3c :: cs' =>
          match octDigitVal o2c, octDigitVal o3c with
          | some o2, some o3 =>
            let v := o1 * 64 + o2 * 8 + o3
            if 255 < v then none else some (Char.ofNat v, cs')
          | _, _ => none
        | _ => none
      | none =>
        match simpleEscape q e with
        | some d => some (d, cs)
        | none => none

/-- Translated from the escape-processing loop of strconv `unquote` with
delimiter `q`: decode characters until the unescaped terminating
delimiter, rejecting unescaped newlines and bad escape sequences; returns
the decoded content and the remainder after the terminating delimiter.
Structured on a fuel argument so that it evaluates by kernel reduction;
every step consumes at least one character, so fuel equal to the input
length (as supplied by `unqLoop`) never runs out. -/
def unqLoopF (q : Char) : Nat → List Char → Option (List Char × List Char)
  | 0, _ => none
  | _ + 1, [] => none
  | fuel + 1, c :: cs =>
    if c = q then some ([], cs)
    else if c = nlChar then none
    else if c = bslash then
      match unqEscape q cs with
      | some (d, cs') => (unqLoopF q fuel cs').map (fun p => (d :: p.1, p.2))
      | none => none
    else (unqLoopF q fuel cs).map (fun p => (c :: p.1, p.2))

/-- The escape-processing loop at its natural fuel. -/
def unqLoop (q : Char) (cs : List Char) : Option (List Char × List Char) :=
  unqLoopF q cs.length cs

/-- Translated from `strconv.Unquote`: a backquoted string must close at
its first backquote with nothing after it, and carriage returns inside
are discarded; a double- or single-quoted string is decoded by the escape
loop with nothing allowed after the terminating delimiter, and a
single-quoted string must contain exactly one character.  Anything else
is a syntax error. -/
def goUnquote (s : List Char) : Option (List Char) :=
  match s with
  | [] => none
  | [_] => none
  | q :: rest =>
    if q = bquote then
      if rest.getLast? = some bquote ∧ bquote ∉ rest.dropLast then
        some (rest.dropLast.filter (fun c => c != crChar))
      else none
    else if q = dquote then
      match unqLoop dquote rest with
      | some (out, []) => some out
      | _ => none
    else if q = squote then
      match unqLoop squote rest with
      | some ([c], []) => some [c]
      | _ => none
    else none

/-- Translated from Go `strings.Split(s, " ")`: split at every space,
preserving empty parts; the result is always nonempty. -/
def splitSpace : List Char → List (List Char)
  | [] => [[]]
  | c :: cs =>
    if c = ' ' then [] :: splitSpace cs
    else
      match splitSpace cs with
      | [] => [[c]]
      | h :: t => (c :: h) :: t

/-- Translated from Go `strconv.ParseUint(s, 10, _)` digit scanning: a
nonempty all-digit string evaluated in base 10. -/
def parseDigits (cs : List Char) : Option Nat :=
  if cs = [] then none
  else if cs.all charIsDigit then
    some (cs.foldl (fun a c => 10 * a + (c.toNat - 48)) 0)
  else none

/-- Translated from Go `strconv.ParseInt(s, 10, 32)`: an optional sign
followed by decimal digits, with the 32-bit range checks (`u < 2^31` for
nonnegative values, `u ≤ 2^31` for negated ones); `none` models both the
syntax and the range error. -/
def parseInt32 (s : List Char) : Option Int :=
  match s with
  | [] => none
  | c :: rest =>
    if c = '+' then
      (parseDigits rest).bind fun u =>
        if (u : Int) < 2147483648 then some (u : Int) else none
    else if c = '-' then
      (parseDigits rest).bind fun u =>
        if (u : Int) ≤ 2147483648 then some (-(u : Int)) else none
    else
      (parseDigits (c :: rest)).bind fun u =>
        if (u : Int) < 2147483648 then some (u : Int) else none

/-- Translated from runtime.go `Runtime.UnmarshalJSON`: unquote the JSON
string, split on spaces, require exactly the two parts `<value>` and
`mins`, and parse the value as a 32-bit integer; every failure yields the
single error `ErrInvalidRuntimeFormat`, modelled as `none`. -/
def unmarshalRuntime (input : List Char) : Option Int :=
  match goUnquote input with
  | none => none
  | some str =>
    match splitSpace str with
    | [p0, p1] => if p1 = "mins".data then parseInt32 p0 else none
    | _ => none

/-- The set of canonical encodings: exactly the outputs of `MarshalJSON`
on 32-bit values — a double-quoted string of the form `"<int32> mins"`
with the integer written as `%d` writes it. -/
def isCanonicalRuntimeJSON (s : List Char) : Prop :=
  ∃ n : Int, -2147483648 ≤ n ∧ n < 2147483648 ∧ s = marshalRuntime n

/-- If a record is stored under `id`, then after `setRecord st id r'` the
lookup of `id` yields `r'`. -/
theorem Store.lookup_setRecord (st : Store) (id : Int) (r r' : VersionedRecord)
    (h : Store.lookup st id = some r) :
    Store.lookup (Store.setRecord st id r') id = some r' := by
  induction st with
  | nil => simp [Store.lookup] at h
  | cons hd tl ih =>
    obtain ⟨k, r₀⟩ := hd
    by_cases hk : k = id
    · simp [Store.lookup, Store.setRecord, hk]
    · simp [Store.lookup, Store.setRecord, hk] at h ⊢
      exact ih h

/-- Branch lemma: a conditional write against a matching stored version
succeeds and installs the incremented record. -/
theorem conditionalWrite_success (st : Store) (id ev : Int) (p : String)
    (r : VersionedRecord) (h : Store.lookup st id = some r) (hv : r.version = ev) :
    conditionalWrite st id ev p =
      (WriteOutcome.success { payload := p, version := ev + 1 },
        Store.setRecord st id { payload := p, version := ev + 1 }) := by
  simp [conditionalWrite, h, hv]

/-- Branch lemma: a conditional write against a mismatched stored version
signals a conflict and mutates nothing. -/
theorem conditionalWrite_conflict (st : Store) (id ev : Int) (p : String)
    (r : VersionedRecord) (h : Store.lookup st id = some r) (hv : r.version ≠ ev) :
    conditionalWrite st id ev p = (WriteOutcome.editConflict, st) := by
  simp [conditionalWrite, h, hv]

/-- Branch lemma: a conditional write against a missing record signals
not-found and mutates nothing. -/
theorem conditionalWrite_notFound (st : Store) (id ev : Int) (p : String)
    (h : Store.lookup st id = none) :
    conditionalWrite st id ev p = (WriteOutcome.recordNotFound, st) := by
  simp [conditionalWrite, h]

/-- C3: every conditional write to a versioned record yields exactly one of
three outcomes: success with the stored version incremented by exactly 1 and
the updated record returned; an edit-conflict signal with no mutation, when
the stored version differs from the version the caller supplied; or a
not-found signal (with no mutation) when the record does not exist. -/
theorem C3_conditionalWrite_trichotomy (st : Store) (id ev : Int) (p : String) :
    (((conditionalWrite st id ev p).1 = WriteOutcome.recordNotFound ∧
        Store.lookup st id = none ∧ (conditionalWrite st id ev p).2 = st) ∨
      (∃ r, Store.lookup st id = some r ∧ r.version ≠ ev ∧
        (conditionalWrite st id ev p).1 = WriteOutcome.editConflict ∧
        (conditionalWrite st id ev p).2 = st) ∨
      (∃ r, Store.lookup st id = some r ∧ r.version = ev ∧
        (conditionalWrite st id ev p).1 =
          WriteOutcome.success { payload := p, version := r.version + 1 } ∧
        Store.lookup (conditionalWrite st id ev p).2 id =
          some { payload := p, version := r.version + 1 })) := by
  rcases hlook : Store.lookup st id with _ | r
  · rw [conditionalWrite_notFound st id ev p hlook]
    exact Or.inl ⟨rfl, rfl, rfl⟩
  · by_cases hv : r.version = ev
    · rw [conditionalWrite_success st id ev p r hlook hv]
      refine Or.inr (Or.inr ⟨r, rfl, hv, by rw [hv], ?_⟩)
      rw [hv]
      exact Store.lookup_setRecord st id r _ hlook
    · rw [conditionalWrite_conflict st id ev p r hlook hv]
      exact Or.inr (Or.inl ⟨r, rfl, hv, rfl, rfl⟩)

/-- C4: two concurrent conditional writes to the same record that both carry
expected version V (each write being atomic at the storage level, the two
possible interleavings are the two execution orders): in either order the
first write succeeds leaving stored version V+1 and the second receives an
edit conflict with no mutation; no order yields two successes, and the
version moves from V to V+1 (never decreasing, never skipping). -/
theorem C4_concurrent_conditional_writes (st : Store) (id V : Int) (p₁ p₂ : String)
    (r₀ : VersionedRecord) (h : Store.lookup st id = some r₀) (hV : r₀.version = V) :
    ((conditionalWrite st id V p₁).1 =
        WriteOutcome.success { payload := p₁, version := V + 1 } ∧
      (conditionalWrite (conditionalWrite st id V p₁).2 id V p₂).1 =
        WriteOutcome.editConflict ∧
      (conditionalWrite (conditionalWrite st id V p₁).2 id V p₂).2 =
        (conditionalWrite st id V p₁).2 ∧
      Store.lookup (conditionalWrite st id V p₁).2 id =
        some { payload := p₁, version := V + 1 }) ∧
    ((conditionalWrite st id V p₂).1 =
        WriteOutcome.success { payload := p₂, version := V + 1 } ∧
      (conditionalWrite (conditionalWrite st id V p₂).2 id V p₁).1 =
        WriteOutcome.editConflict ∧
      (conditionalWrite (conditionalWrite st id V p₂).2 id V p₁).2 =
        (conditionalWrite st id V p₂).2 ∧
      Store.lookup (conditionalWrite st id V p₂).2 id =
        some { payload := p₂, version := V + 1 }) := by
  have hW₁ := conditionalWrite_success st id V p₁ r₀ h hV
  have hW₂ := conditionalWrite_success st id V p₂ r₀ h hV
  have hlook₁ : Store.lookup (conditionalWrite st id V p₁).2 id =
      some { payload := p₁, version := V + 1 } := by
    rw [hW₁]
    exact Store.lookup_setRecord st id r₀ _ h
  have hlook₂ : Store.lookup (conditionalWrite st id V p₂).2 id =
      some { payload := p₂, version := V + 1 } := by
    rw [hW₂]
    exact Store.lookup_setRecord st id r₀ _ h
  have hne : V + 1 ≠ V := by omega
  have hC₁ := conditionalWrite_conflict (conditionalWrite st id V p₁).2 id V p₂
    { payload := p₁, version := V + 1 } hlook₁ hne
  have hC₂ := conditionalWrite_conflict (conditionalWrite st id V p₂).2 id V p₁
    { payload := p₂, version := V + 1 } hlook₂ hne
  exact ⟨⟨by rw [hW₁], by rw [hC₁], by rw [hC₁], hlook₁⟩,
    by rw [hW₂], by rw [hC₂], by rw [hC₂], hlook₂⟩

/-- Witness for C4 at the spec's concrete scenario: a record stored with
version 5; both writers carry expected version 5; in either order the first
succeeds (version becomes 6) and the second conflicts. -/
theorem C4_concurrent_conditional_writes_witness :
    ((conditionalWrite [(1, ⟨"old", 5⟩)] 1 5 "h1").1 =
        WriteOutcome.success { payload := "h1", version := 6 } ∧
      (conditionalWrite (conditionalWrite [(1, ⟨"old", 5⟩)] 1 5 "h1").2 1 5 "h2").1 =
        WriteOutcome.editConflict ∧
      (conditionalWrite (conditionalWrite [(1, ⟨"old", 5⟩)] 1 5 "h1").2 1 5 "h2").2 =
        (conditionalWrite [(1, ⟨"old", 5⟩)] 1 5 "h1").2 ∧
      Store.lookup (conditionalWrite [(1, ⟨"old", 5⟩)] 1 5 "h1").2 1 =
        some { payload := "h1", version := 6 }) ∧
    ((conditionalWrite [(1, ⟨"old", 5⟩)] 1 5 "h2").1 =
        WriteOutcome.success { payload := "h2", version := 6 } ∧
      (conditionalWrite (conditionalWrite [(1, ⟨"old", 5⟩)] 1 5 "h2").2 1 5 "h1").1 =
        WriteOutcome.editConflict ∧
      (conditionalWrite (conditionalWrite [(1, ⟨"old", 5⟩)] 1 5 "h2").2 1 5 "h1").2 =
        (conditionalWrite [(1, ⟨"old", 5⟩)] 1 5 "h2").2 ∧
      Store.lookup (conditionalWrite [(1, ⟨"old", 5⟩)] 1 5 "h2").2 1 =
        some { payload := "h2", version := 6 }) := by
  have h : Store.lookup [(1, (⟨"old", 5⟩ : VersionedRecord))] 1 =
      some ⟨"old", 5⟩ := by simp [Store.lookup]
  have h6 : (5 : Int) + 1 = 6 := by norm_num
  simpa [h6] using
    C4_concurrent_conditional_writes [(1, ⟨"old", 5⟩)] 1 5 "h1" "h2" ⟨"old", 5⟩ h rfl

/-- C5: `tryConsume(now)` first recomputes the token count as
`min(capacity, tokens + elapsed*refillRate)`; it returns *allowed* and
decrements by 1 exactly when the recomputed value is ≥ 1, and otherwise
returns *denied*, persisting the decayed unconsumed count.  In particular,
with capacity 4 and rate 2 tokens/second, 6 immediate requests yield
4 allowed followed by 2 denied, and after waiting 1.0 s two further
requests are allowed and a third is denied. -/
theorem C5_tryConsume_scenario :
    (∀ (b : TokenBucket) (now : ℚ),
      ((b.tryConsume now).1 = Verdict.allowed ↔ 1 ≤ b.refill now) ∧
      (b.tryConsume now).2.tokens =
        (if 1 ≤ b.refill now then b.refill now - 1 else b.refill now)) ∧
    ((freshBucket 4 2 0).runConsume [0, 0, 0, 0, 0, 0, 1, 1, 1]).1 =
      [Verdict.allowed, Verdict.allowed, Verdict.allowed, Verdict.allowed,
        Verdict.denied, Verdict.denied,
        Verdict.allowed, Verdict.allowed, Verdict.denied] := by
  constructor
  · intro b now
    constructor
    · constructor
      · intro hA
        by_contra hlt
        simp [TokenBucket.tryConsume, hlt] at hA
      · intro hge
        simp [TokenBucket.tryConsume, hge]
    · by_cases hge : 1 ≤ b.refill now
      · simp [TokenBucket.tryConsume, hge]
      · simp [TokenBucket.tryConsume, hge]
  · norm_num [TokenBucket.runConsume, TokenBucket.tryConsume, TokenBucket.refill,
      freshBucket, min_def]

/-- C6: after any `tryConsume` (allowed or denied, including its lazy
refill step), the token count stays within the closed interval
`[0, capacity]`, provided it was in that interval before, the refill rate
is nonnegative and time has not gone backwards. -/
theorem C6_tokens_within_bounds (b : TokenBucket) (now : ℚ)
    (h0 : 0 ≤ b.tokens) (h1 : b.tokens ≤ b.capacity)
    (hr : 0 ≤ b.refillRate) (ht : b.lastRefill ≤ now) :
    0 ≤ ((b.tryConsume now).2).tokens ∧
      ((b.tryConsume now).2).tokens ≤ ((b.tryConsume now).2).capacity := by
  have hcap : 0 ≤ b.capacity := le_trans h0 h1
  have helapsed : 0 ≤ (now - b.lastRefill) * b.refillRate :=
    mul_nonneg (by linarith) hr
  have hlow : 0 ≤ b.refill now := by
    rw [TokenBucket.refill]
    exact le_min hcap (by linarith)
  have hhigh : b.refill now ≤ b.capacity := min_le_left _ _
  by_cases hge : 1 ≤ b.refill now
  · simp only [TokenBucket.tryConsume, if_pos hge]
    constructor
    · linarith
    · linarith
  · simp only [TokenBucket.tryConsume, if_neg hge]
    exact ⟨hlow, hhigh⟩

/-- Witness for C6: a fresh bucket (capacity 4, rate 2) consumed at time 0
keeps its token count inside `[0, 4]`. -/
theorem C6_tokens_within_bounds_witness :
    0 ≤ (((freshBucket 4 2 0).tryConsume 0).2).tokens ∧
      (((freshBucket 4 2 0).tryConsume 0).2).tokens ≤
        (((freshBucket 4 2 0).tryConsume 0).2).capacity :=
  C6_tokens_within_bounds (freshBucket 4 2 0) 0 (by norm_num [freshBucket])
    (by norm_num [freshBucket]) (by norm_num [freshBucket]) (by norm_num [freshBucket])

/-- C1: for every request whose handler raises an unrecoverable fault, the
fault-containment wrapper intercepts it (no panic ever propagates out of the
wrapper) and produces the generic 500-class response carrying the
`Connection: close` header, never resuming the faulted handler: the
response on a fault is fixed, independent of the panic value. -/
theorem C1_recoverPanic_containment (next : Handler) (req : Request)
    (evs : List Event) (msg : String) (h : next req = (evs, HResult.panics msg)) :
    recoverPanic next req =
      (evs, HResult.completes { status := 500, headers := [("Connection", "close")] }) ∧
    (∀ (next' : Handler) (req' : Request),
      ∃ evs' resp, recoverPanic next' req' = (evs', HResult.completes resp)) := by
  constructor
  · rw [recoverPanic, h]
    rfl
  · intro next' req'
    rcases hres : next' req' with ⟨evs', r⟩
    cases r with
    | completes resp => exact ⟨evs', resp, by rw [recoverPanic, hres]⟩
    | panics m =>
      exact ⟨evs', serverErrorResponse [("Connection", "close")], by rw [recoverPanic, hres]⟩

/-- Witness for C1: a handler that panics on the healthcheck request is
contained and answered with the 500 response and `Connection: close`. -/
theorem C1_recoverPanic_containment_witness :
    recoverPanic panickingHandler healthReq =
      ([], HResult.completes { status := 500, headers := [("Connection", "close")] }) ∧
    (∀ (next' : Handler) (req' : Request),
      ∃ evs' resp, recoverPanic next' req' = (evs', HResult.completes resp)) :=
  C1_recoverPanic_containment panickingHandler healthReq [] "boom" rfl

/-- When the client's bucket denies, the admission gate responds 429
without invoking the downstream handler. -/
theorem rateLimitGate_denied (b : TokenBucket) (now : ℚ) (next : Handler) (req : Request)
    (h : (b.tryConsume now).1 = Verdict.denied) :
    rateLimitGate b now next req =
      ([Event.admissionCheck], HResult.completes { status := 429, headers := [] }) := by
  have key : rateLimitGate b now next req = match b.tryConsume now with
    | (Verdict.allowed, _) =>
      let r := next req
      (Event.admissionCheck :: r.1, r.2)
    | (Verdict.denied, _) =>
      ([Event.admissionCheck], HResult.completes { status := 429, headers := [] }) := rfl
  rcases hb : b.tryConsume now with ⟨v, b'⟩
  rw [hb] at h key
  cases v
  · exact absurd h (by simp)
  · rw [key]

/-- C2 counterexample: the claim that the handler composed by `routes()`
applies the admission gate to every route fails at the concrete healthcheck
request — the composed handler runs the application handler without any
admission check, even in a state (empty token bucket) in which the
spec's admission gate would reject the request with 429 before any handler
work. -/
theorem C2_routes_no_gate_counterexample :
    Event.admissionCheck ∉ (routes appHandlersModel healthReq).1 ∧
    routes appHandlersModel healthReq =
      ([Event.ranHandler "healthCheck"],
        HResult.completes { status := 200, headers := [] }) ∧
    rateLimitGate emptyBucket 0 (routerDispatch appHandlersModel) healthReq =
      ([Event.admissionCheck], HResult.completes { status := 429, headers := [] }) := by
  refine ⟨?_, rfl, ?_⟩
  · intro hmem
    simp [routes, recoverPanic, routerDispatch, appHandlersModel, healthReq] at hmem
  · have hdenied : (emptyBucket.tryConsume 0).1 = Verdict.denied := by
      norm_num [TokenBucket.tryConsume, TokenBucket.refill, emptyBucket]
    exact rateLimitGate_denied emptyBucket 0 (routerDispatch appHandlersModel) healthReq hdenied

/-- The containment wrapper forwards the events of the wrapped handler
unchanged. -/
theorem recoverPanic_events (next : Handler) (req : Request) :
    (recoverPanic next req).1 = (next req).1 := by
  simp only [recoverPanic]
  rcases h : next req with ⟨evs, r⟩
  cases r <;> rfl

/-- The router (with the model application handlers) never emits an
admission-check event: no route consults the limiter. -/
theorem routerDispatch_no_admission (req : Request) :
    Event.admissionCheck ∉ (routerDispatch appHandlersModel req).1 := by
  simp only [routerDispatch]
  split
  · simp [appHandlersModel]
  · simp [appHandlersModel]
  · simp [appHandlersModel]
  · split
    · simp [methodNotAllowedResponse]
    · simp [notFoundResponse]

/-- C2 amended: the handler composed by `routes()` applies the
fault-containment wrapper directly around the router — every request is
processed through the wrapper and then dispatched to the application
handler, with no admission gate anywhere in the chain. -/
theorem C2_routes_chain_amended :
    (∀ h : AppHandlers, routes h = recoverPanic (routerDispatch h)) ∧
    (∀ req : Request, Event.admissionCheck ∉ (routes appHandlersModel req).1) := by
  refine ⟨fun _ => rfl, ?_⟩
  intro req
  rw [routes, recoverPanic_events]
  exact routerDispatch_no_admission req

/-- C7 counterexample: the claim that the configuration surface consumed at
process start includes all six of rate, burst, enabled flag, idle eviction
threshold, sweep interval and drain budget is false: the limiter section of
the config struct has exactly the three fields `rps`, `burst`, `enabled`,
and the complete flag surface registered by `main()` (enumerated in
`registeredFlagNames`) contains the three limiter flags but no setting for
an idle eviction threshold, a sweep interval or a drain budget. -/
theorem C7_config_surface_counterexample :
    limiterConfigFields = ["rps", "burst", "enabled"] ∧
    ("limiter-rps" ∈ registeredFlagNames ∧
      "limiter-burst" ∈ registeredFlagNames ∧
      "limiter-enabled" ∈ registeredFlagNames) ∧
    registeredFlagNames.length = 16 ∧
    ¬ ("idleThreshold" ∈ limiterConfigFields ∨
        "sweepInterval" ∈ limiterConfigFields ∨
        "drainBudget" ∈ limiterConfigFields ∨
        "limiter-idle-threshold" ∈ registeredFlagNames ∨
        "limiter-sweep-interval" ∈ registeredFlagNames ∨
        "limiter-drain-budget" ∈ registeredFlagNames ∨
        "drain-budget" ∈ registeredFlagNames ∨
        "shutdown-timeout" ∈ registeredFlagNames) := by
  refine ⟨rfl, ⟨?_, ?_, ?_⟩, rfl, ?_⟩ <;> decide

/-- C7 amended: the configuration surface consumed at process start, and
immutable thereafter, includes rate (`limiter-rps`), burst
(`limiter-burst`) and the enabled flag (`limiter-enabled`); the limiter
configuration consists of exactly these three settings, so the idle
eviction threshold, the sweep interval and the drain budget are not part
of the configuration surface. -/
theorem C7_config_surface_amended :
    ("limiter-rps" ∈ registeredFlagNames ∧
      "limiter-burst" ∈ registeredFlagNames ∧
      "limiter-enabled" ∈ registeredFlagNames) ∧
    (∀ f ∈ limiterConfigFields, f = "rps" ∨ f = "burst" ∨ f = "enabled") ∧
    (∀ f ∈ registeredFlagNames, "limiter-".data.isPrefixOf f.data →
      f = "limiter-rps" ∨ f = "limiter-burst" ∨ f = "limiter-enabled") := by
  refine ⟨⟨?_, ?_, ?_⟩, ?_, ?_⟩ <;> decide

/-- A valid check means the condition held and the incoming validator was
already valid. -/
theorem Validator.isValid_check (v : Validator) (c : Bool) (k : String)
    (h : (Validator.check v c k).isValid = true) : c = true ∧ v.isValid = true := by
  cases c with
  | true => exact ⟨rfl, h⟩
  | false => simp [Validator.check, Validator.isValid] at h

/-- A filter that passes `ValidateFilters` has its sort value in the safe
list. -/
theorem validateFilters_sort_mem (f : Filters)
    (h : (validateFilters [] f).isValid = true) : f.sort ∈ f.sortSafeList := by
  have h₁ := Validator.isValid_check _ _ _ h
  simpa [permittedValue] using h₁.1

/-- Scanning the safe list finds any member and trims its leading dash. -/
theorem sortColumnLoop_of_mem (sort : List Char) (l : List (List Char))
    (h : sort ∈ l) : sortColumnLoop sort l = some (trimDash sort) := by
  induction l with
  | nil => simp at h
  | cons safe rest ih =>
    by_cases hs : sort = safe
    · simp [sortColumnLoop, hs]
    · have : sort ∈ rest := by
        rcases List.mem_cons.mp h with h' | h'
        · exact absurd h' hs
        · exact h'
      simp [sortColumnLoop, hs, ih this]

/-- `sortDirection` is `DESC` exactly on a leading dash. -/
theorem sortDirection_eq (f : Filters) :
    f.sortDirection = (if "-".data.isPrefixOf f.sort then "DESC".data else "ASC".data) := by
  rcases f with ⟨p, ps, s, l⟩
  cases s with
  | nil => simp [Filters.sortDirection, List.isPrefixOf]
  | cons c rest =>
    by_cases hc : c = '-'
    · subst hc
      simp [Filters.sortDirection, List.isPrefixOf]
    · rw [show Filters.sortDirection ⟨p, ps, c :: rest, l⟩ = "ASC".data from ?_]
      · have hc' : ('-' : Char) ≠ c := fun h => hc h.symm
        simp [List.isPrefixOf, hc']
      · rw [Filters.sortDirection]
        split
        · rename_i heq
          simp at heq
          exact absurd heq.1 hc
        · rfl

/-- C9: for every filter that `ValidateFilters` reports valid (its sort
value is in the safe list), `sortColumn` never reaches its panic branch
and returns the sort value with any leading dash removed, and
`sortDirection` returns `DESC` exactly when the sort value starts with a
dash and `ASC` otherwise. -/
theorem C9_sort_never_panics (f : Filters)
    (h : (validateFilters [] f).isValid = true) :
    f.sortColumn = some (trimDash f.sort) ∧
    (f.sortDirection = "DESC".data ↔ "-".data.isPrefixOf f.sort = true) ∧
    ("-".data.isPrefixOf f.sort = false → f.sortDirection = "ASC".data) := by
  refine ⟨?_, ?_, ?_⟩
  · exact sortColumnLoop_of_mem f.sort f.sortSafeList (validateFilters_sort_mem f h)
  · rw [sortDirection_eq]
    by_cases hd : "-".data.isPrefixOf f.sort
    · simp [hd]
    · simp [hd]
  · intro hd
    rw [sortDirection_eq, hd]
    rfl

/-- Witness for C9: a valid filter sorting by `-year` never panics,
yields column `year` and direction `DESC`. -/
theorem C9_sort_never_panics_witness :
    (Filters.mk 1 20 "-year".data ["id".data, "year".data, "-year".data]).sortColumn =
        some (trimDash "-year".data) ∧
      ((Filters.mk 1 20 "-year".data ["id".data, "year".data, "-year".data]).sortDirection =
            "DESC".data ↔
          "-".data.isPrefixOf "-year".data = true) ∧
      ("-".data.isPrefixOf "-year".data = false →
        (Filters.mk 1 20 "-year".data ["id".data, "year".data, "-year".data]).sortDirection =
          "ASC".data) :=
  C9_sort_never_panics (Filters.mk 1 20 "-year".data ["id".data, "year".data, "-year".data])
    (by decide)

/-- Ceiling of a rational quotient of positive integers, as Euclidean
integer arithmetic. -/
theorem ceil_ratdiv_eq (t s : ℤ) (ht : 1 ≤ t) (hs : 1 ≤ s) :
    ⌈(t : ℚ) / (s : ℚ)⌉ = (t + s - 1) / s := by
  have hsz : (0 : ℤ) < s := by omega
  have hs0 : (0 : ℚ) < (s : ℚ) := by exact_mod_cast hsz
  have hmod := Int.ediv_add_emod (t + s - 1) s
  have hr0 : 0 ≤ (t + s - 1) % s := Int.emod_nonneg _ (by omega)
  have hrs : (t + s - 1) % s < s := Int.emod_lt_of_pos _ hsz
  have h1 : ((t + s - 1) / s - 1) * s < t := by
    have e1 : ((t + s - 1) / s - 1) * s = s * ((t + s - 1) / s) - s := by ring
    rw [e1]
    linarith
  have h2 : t ≤ ((t + s - 1) / s) * s := by
    have e2 : ((t + s - 1) / s) * s = s * ((t + s - 1) / s) := by ring
    rw [e2]
    linarith
  rw [Int.ceil_eq_iff]
  constructor
  · rw [show (((((t + s - 1) / s : ℤ)) : ℚ) - 1) = (((t + s - 1) / s - 1 : ℤ) : ℚ) by
      push_cast; ring]
    rw [lt_div_iff₀ hs0]
    exact_mod_cast h1
  · rw [div_le_iff₀ hs0]
    exact_mod_cast h2

/-! ### Lemmas about the binary64 rounding model -/

/-- `bitLenF` sends zero to zero at any fuel. -/
theorem bitLenF_zero (f : Nat) : bitLenF f 0 = 0 := by
  cases f <;> simp [bitLenF]

/-- With sufficient fuel, `bitLenF` counts binary digits. -/
theorem bitLenF_spec (f : Nat) : ∀ n : Nat, 0 < n → n < f →
    2 ^ (bitLenF f n - 1) ≤ n ∧ n < 2 ^ bitLenF f n := by
  induction f with
  | zero => omega
  | succ f ih =>
    intro n h0 hf
    have hne : n ≠ 0 := by omega
    simp only [bitLenF, if_neg hne]
    by_cases h1 : n = 1
    · subst h1
      rw [show (1 : Nat) / 2 = 0 from rfl, bitLenF_zero]
      norm_num
    · have hdpos : 0 < n / 2 := Nat.div_pos (by omega) (by omega)
      have hdlt : n / 2 < f := by
        have := Nat.div_lt_self (show 0 < n by omega) (show 1 < 2 by omega)
        omega
      obtain ⟨hl, hu⟩ := ih (n / 2) hdpos hdlt
      have hL1 : 1 ≤ bitLenF f (n / 2) := by
        by_contra hc
        rw [show bitLenF f (n / 2) = 0 from by omega] at hu
        omega
      have hA : 2 ^ bitLenF f (n / 2) = 2 * 2 ^ (bitLenF f (n / 2) - 1) := by
        rw [← pow_succ']
        congr 1
        omega
      have hA2 : 2 ^ (bitLenF f (n / 2) + 1) = 2 * 2 ^ bitLenF f (n / 2) :=
        pow_succ' 2 _
      rw [hA] at hu
      constructor
      · rw [show bitLenF f (n / 2) + 1 - 1 = bitLenF f (n / 2) from by omega, hA]
        omega
      · rw [hA2, hA]
        omega

/-- `bitLen` counts binary digits: `2 ^ (bitLen n - 1) ≤ n < 2 ^ bitLen n`. -/
theorem bitLen_spec (n : Nat) (h : 0 < n) :
    2 ^ (bitLen n - 1) ≤ n ∧ n < 2 ^ bitLen n :=
  bitLenF_spec (n + 1) n h (by omega)

/-- Bridge between natural powers of two and rational `zpow`. -/
theorem zpow_natBridge (l : Nat) : (2 : ℚ) ^ (l : Int) = ((2 ^ l : Nat) : ℚ) := by
  rw [zpow_natCast]
  push_cast
  ring

/-- Bridge at a predecessor exponent. -/
theorem zpow_natBridge_pred (l : Nat) (hl : 1 ≤ l) :
    (2 : ℚ) ^ ((l : Int) - 1) = ((2 ^ (l - 1) : Nat) : ℚ) := by
  rw [show (l : Int) - 1 = ((l - 1 : Nat) : Int) from by omega, zpow_natCast]
  push_cast
  ring

/-- `floorLog2` finds the binade of a positive rational:
`2 ^ floorLog2 v ≤ v < 2 ^ (floorLog2 v + 1)`. -/
theorem floorLog2_spec (v : ℚ) (hv : 0 < v) :
    (2 : ℚ) ^ floorLog2 v ≤ v ∧ v < (2 : ℚ) ^ (floorLog2 v + 1) := by
  have hnum : 0 < v.num := Rat.num_pos.mpr hv
  have hden : 0 < v.den := v.den_pos
  have ha1 : 0 < v.num.toNat := by omega
  obtain ⟨hal, hau⟩ := bitLen_spec v.num.toNat ha1
  obtain ⟨hbl, hbu⟩ := bitLen_spec v.den hden
  have hla1 : 1 ≤ bitLen v.num.toNat := by
    by_contra hc
    rw [show bitLen v.num.toNat = 0 from by omega] at hau
    omega
  have hlb1 : 1 ≤ bitLen v.den := by
    by_contra hc
    rw [show bitLen v.den = 0 from by omega] at hbu
    omega
  have hveq : v = (v.num.toNat : ℚ) / (v.den : ℚ) := by
    rw [show ((v.num.toNat : ℚ)) = ((v.num : ℚ)) from by
      rw [show ((v.num.toNat : ℚ)) = (((v.num.toNat : Int)) : ℚ) from by push_cast; ring,
        Int.toNat_of_nonneg hnum.le]]
    exact_mod_cast (Rat.num_div_den v).symm
  have haq : (0 : ℚ) < (v.num.toNat : ℚ) := by exact_mod_cast ha1
  have hbq : (0 : ℚ) < (v.den : ℚ) := by exact_mod_cast hden
  set la := bitLen v.num.toNat with hla
  set lb := bitLen v.den with hlb
  have h1 : (2 : ℚ) ^ ((la : Int) - 1) ≤ (v.num.toNat : ℚ) := by
    rw [zpow_natBridge_pred la hla1]
    exact_mod_cast hal
  have h1u : (v.num.toNat : ℚ) < (2 : ℚ) ^ (la : Int) := by
    rw [zpow_natBridge la]
    exact_mod_cast hau
  have h2l : (2 : ℚ) ^ ((lb : Int) - 1) ≤ (v.den : ℚ) := by
    rw [zpow_natBridge_pred lb hlb1]
    exact_mod_cast hbl
  have h2u : (v.den : ℚ) < (2 : ℚ) ^ (lb : Int) := by
    rw [zpow_natBridge lb]
    exact_mod_cast hbu
  have hpow_la1 : (0 : ℚ) < (2 : ℚ) ^ ((la : Int) - 1) := zpow_pos (by norm_num) _
  have hpow_lb : (0 : ℚ) < (2 : ℚ) ^ (lb : Int) := zpow_pos (by norm_num) _
  have hpow_lb1 : (0 : ℚ) < (2 : ℚ) ^ ((lb : Int) - 1) := zpow_pos (by norm_num) _
  have hlow : (2 : ℚ) ^ (((la : Int) - (lb : Int)) - 1) < v := by
    have step1 : (2 : ℚ) ^ ((la : Int) - 1) / (2 : ℚ) ^ (lb : Int) ≤
        (v.num.toNat : ℚ) / (2 : ℚ) ^ (lb : Int) :=
      (div_le_div_iff_of_pos_right hpow_lb).mpr h1
    have step2 : (v.num.toNat : ℚ) / (2 : ℚ) ^ (lb : Int) <
        (v.num.toNat : ℚ) / (v.den : ℚ) :=
      div_lt_div_of_pos_left haq hbq h2u
    have heq : (2 : ℚ) ^ (((la : Int) - (lb : Int)) - 1) =
        (2 : ℚ) ^ ((la : Int) - 1) / (2 : ℚ) ^ (lb : Int) := by
      rw [show ((la : Int) - (lb : Int)) - 1 = ((la : Int) - 1) - (lb : Int) from by ring,
        zpow_sub₀ (by norm_num)]
    rw [heq, hveq]
    exact lt_of_le_of_lt step1 step2
  have hhigh : v < (2 : ℚ) ^ (((la : Int) - (lb : Int)) + 1) := by
    have step1 : (v.num.toNat : ℚ) / (v.den : ℚ) ≤
        (v.num.toNat : ℚ) / (2 : ℚ) ^ ((lb : Int) - 1) :=
      div_le_div_of_nonneg_left haq.le hpow_lb1 h2l
    have step2 : (v.num.toNat : ℚ) / (2 : ℚ) ^ ((lb : Int) - 1) <
        (2 : ℚ) ^ (la : Int) / (2 : ℚ) ^ ((lb : Int) - 1) :=
      (div_lt_div_iff_of_pos_right hpow_lb1).mpr h1u
    have heq : (2 : ℚ) ^ (((la : Int) - (lb : Int)) + 1) =
        (2 : ℚ) ^ (la : Int) / (2 : ℚ) ^ ((lb : Int) - 1) := by
      rw [show ((la : Int) - (lb : Int)) + 1 = (la : Int) - ((lb : Int) - 1) from by ring,
        zpow_sub₀ (by norm_num)]
    rw [heq, hveq]
    exact lt_of_le_of_lt step1 step2
  simp only [floorLog2]
  split_ifs with h
  · exact ⟨h, hhigh⟩
  · constructor
    · exact hlow.le
    · rw [show (la : Int) - (lb : Int) - 1 + 1 = (la : Int) - (lb : Int) from by ring]
      exact lt_of_not_ge fun hc => h hc

/-- The binade characterizes `floorLog2`. -/
theorem floorLog2_eq_of (v : ℚ) (e : Int) (h1 : (2 : ℚ) ^ e ≤ v)
    (h2 : v < (2 : ℚ) ^ (e + 1)) : floorLog2 v = e := by
  have hv : 0 < v := lt_of_lt_of_le (zpow_pos (by norm_num) e) h1
  obtain ⟨g1, g2⟩ := floorLog2_spec v hv
  by_contra hne
  rcases lt_or_gt_of_ne hne with hlt | hgt
  · have : (2 : ℚ) ^ (floorLog2 v + 1) ≤ (2 : ℚ) ^ e :=
      zpow_le_zpow_right₀ (by norm_num) (by omega)
    linarith
  · have : (2 : ℚ) ^ (e + 1) ≤ (2 : ℚ) ^ floorLog2 v :=
      zpow_le_zpow_right₀ (by norm_num) (by omega)
    linarith

/-- `roundNearestEven` returns a multiple of the grid spacing. -/
theorem roundNearestEven_mem (v : ℚ) (g : Int) :
    ∃ m : Int, roundNearestEven v g = (m : ℚ) * (2 : ℚ) ^ g := by
  simp only [roundNearestEven]
  split_ifs <;> exact ⟨_, rfl⟩

/-- Scaling a bound on the scaled value back to the grid. -/
theorem round_grid_bound (x P : ℚ) (hP : 0 < P) (m : Int)
    (hA : x - 1 / 2 ≤ (m : ℚ)) (hB : (m : ℚ) ≤ x + 1 / 2) :
    x * P - P / 2 ≤ (m : ℚ) * P ∧ (m : ℚ) * P ≤ x * P + P / 2 := by
  constructor
  · calc x * P - P / 2 = (x - 1 / 2) * P := by ring
    _ ≤ (m : ℚ) * P := mul_le_mul_of_nonneg_right hA hP.le
  · calc (m : ℚ) * P ≤ (x + 1 / 2) * P := mul_le_mul_of_nonneg_right hB hP.le
    _ = x * P + P / 2 := by ring

/-- Rounding moves the value by at most half a grid step. -/
theorem roundNearestEven_err (v : ℚ) (g : Int) :
    v - (2 : ℚ) ^ g / 2 ≤ roundNearestEven v g ∧
      roundNearestEven v g ≤ v + (2 : ℚ) ^ g / 2 := by
  have hP : (0 : ℚ) < (2 : ℚ) ^ g := zpow_pos (by norm_num) g
  have hv : v = v * (2 : ℚ) ^ (-g) * (2 : ℚ) ^ g := by
    rw [mul_assoc, ← zpow_add₀ (two_ne_zero), neg_add_cancel, zpow_zero, mul_one]
  set s : ℚ := v * (2 : ℚ) ^ (-g) with hs
  have hfl : ((⌊s⌋ : ℚ)) ≤ s := Int.floor_le s
  have hfu : s < ⌊s⌋ + 1 := Int.lt_floor_add_one s
  simp only [roundNearestEven, ← hs]
  rw [hv]
  split_ifs with h1 h2 h3
  · exact round_grid_bound s _ hP ⌊s⌋ (by linarith) (by linarith)
  · push_neg at h1
    exact round_grid_bound s _ hP (⌊s⌋ + 1) (by push_cast; linarith)
      (by push_cast; linarith)
  · push_neg at h1 h2
    exact round_grid_bound s _ hP ⌊s⌋ (by linarith) (by linarith)
  · push_neg at h1 h2
    exact round_grid_bound s _ hP (⌊s⌋ + 1) (by push_cast; linarith)
      (by push_cast; linarith)

/-- Rounding never crosses a grid point from below: if `v` is at most the
grid multiple `m₀ · 2^g`, so is its rounding. -/
theorem roundNearestEven_le_of_le (v : ℚ) (g : Int) (m₀ : Int)
    (h : v ≤ (m₀ : ℚ) * (2 : ℚ) ^ g) :
    roundNearestEven v g ≤ (m₀ : ℚ) * (2 : ℚ) ^ g := by
  have hP : (0 : ℚ) < (2 : ℚ) ^ g := zpow_pos (by norm_num) g
  have hs_le : v * (2 : ℚ) ^ (-g) ≤ (m₀ : ℚ) := by
    calc v * (2 : ℚ) ^ (-g) ≤ ((m₀ : ℚ) * (2 : ℚ) ^ g) * (2 : ℚ) ^ (-g) :=
          mul_le_mul_of_nonneg_right h (zpow_pos (by norm_num) (-g)).le
    _ = (m₀ : ℚ) := by
        rw [mul_assoc, ← zpow_add₀ (two_ne_zero), add_neg_cancel, zpow_zero, mul_one]
  simp only [roundNearestEven]
  set s : ℚ := v * (2 : ℚ) ^ (-g) with hs
  have hfloor_le : ⌊s⌋ ≤ m₀ := by
    have := Int.floor_le_floor hs_le
    rwa [Int.floor_intCast] at this
  have hfl : ((⌊s⌋ : ℚ)) ≤ s := Int.floor_le s
  split_ifs with h1 h2 h3
  · exact mul_le_mul_of_nonneg_right (by exact_mod_cast hfloor_le) hP.le
  · by_cases hnm : ⌊s⌋ = m₀
    · exfalso
      rw [hnm] at hfl
      have : s - (⌊s⌋ : ℚ) ≤ 0 := by
        rw [hnm]
        push_cast
        linarith [hs_le]
      linarith
    · have : ⌊s⌋ + 1 ≤ m₀ := by omega
      exact mul_le_mul_of_nonneg_right (by exact_mod_cast this) hP.le
  · exact mul_le_mul_of_nonneg_right (by exact_mod_cast hfloor_le) hP.le
  · by_cases hnm : ⌊s⌋ = m₀
    · exfalso
      push_neg at h1
      have : s - (⌊s⌋ : ℚ) ≤ 0 := by
        rw [hnm]
        push_cast
        linarith [hs_le]
      linarith
    · have : ⌊s⌋ + 1 ≤ m₀ := by omega
      exact mul_le_mul_of_nonneg_right (by exact_mod_cast this) hP.le

/-- A value already on the grid is fixed by rounding. -/
theorem roundNearestEven_exact (v : ℚ) (g : Int) (m₀ : Int)
    (h : v = (m₀ : ℚ) * (2 : ℚ) ^ g) : roundNearestEven v g = v := by
  have hs : v * (2 : ℚ) ^ (-g) = (m₀ : ℚ) := by
    rw [h, mul_assoc, ← zpow_add₀ (two_ne_zero), add_neg_cancel, zpow_zero, mul_one]
  simp only [roundNearestEven, hs, Int.floor_intCast]
  rw [if_pos (by norm_num)]
  exact h.symm

/-- Rounding a value whose scaled form is at least 1 stays positive. -/
theorem roundNearestEven_pos (v : ℚ) (g : Int) (h : 1 ≤ v * (2 : ℚ) ^ (-g)) :
    0 < roundNearestEven v g := by
  have hP : (0 : ℚ) < (2 : ℚ) ^ g := zpow_pos (by norm_num) g
  simp only [roundNearestEven]
  set s : ℚ := v * (2 : ℚ) ^ (-g) with hs
  have hn : 1 ≤ ⌊s⌋ := Int.le_floor.mpr (by exact_mod_cast h)
  split_ifs with h1 h2 h3
  · exact mul_pos (by exact_mod_cast (by omega : (0 : Int) < ⌊s⌋)) hP
  · exact mul_pos (by exact_mod_cast (by omega : (0 : Int) < ⌊s⌋ + 1)) hP
  · exact mul_pos (by exact_mod_cast (by omega : (0 : Int) < ⌊s⌋)) hP
  · exact mul_pos (by exact_mod_cast (by omega : (0 : Int) < ⌊s⌋ + 1)) hP

/-- On positive values `roundDouble` is the binade rounding. -/
theorem roundDouble_of_pos (v : ℚ) (hv : 0 < v) :
    roundDouble v = roundNearestEven v (floorLog2 v - 52) := by
  simp only [roundDouble, if_neg (not_lt.mpr hv.le), if_neg hv.ne']

/-- Rounding a positive value to binary64 stays positive. -/
theorem roundDouble_pos (v : ℚ) (hv : 0 < v) : 0 < roundDouble v := by
  rw [roundDouble_of_pos v hv]
  apply roundNearestEven_pos
  obtain ⟨hl, _⟩ := floorLog2_spec v hv
  have h1 : (2 : ℚ) ^ floorLog2 v * (2 : ℚ) ^ (-(floorLog2 v - 52)) ≤
      v * (2 : ℚ) ^ (-(floorLog2 v - 52)) :=
    mul_le_mul_of_nonneg_right hl (zpow_pos (by norm_num) _).le
  have h2 : (2 : ℚ) ^ floorLog2 v * (2 : ℚ) ^ (-(floorLog2 v - 52)) =
      (2 : ℚ) ^ (52 : Int) := by
    rw [← zpow_add₀ (two_ne_zero)]
    congr 1
    ring
  have h3 : (1 : ℚ) ≤ (2 : ℚ) ^ (52 : Int) := by
    rw [show ((52 : Int)) = ((52 : Nat) : Int) from rfl, zpow_natCast]
    norm_num
  linarith

/-- Rounding a positive value to binary64 moves it by at most half an
ulp, `2 ^ (floorLog2 v - 53)`. -/
theorem roundDouble_err (v : ℚ) (hv : 0 < v) :
    v - (2 : ℚ) ^ (floorLog2 v - 53) ≤ roundDouble v ∧
      roundDouble v ≤ v + (2 : ℚ) ^ (floorLog2 v - 53) := by
  rw [roundDouble_of_pos v hv]
  have h := roundNearestEven_err v (floorLog2 v - 52)
  have heq : (2 : ℚ) ^ (floorLog2 v - 52) / 2 = (2 : ℚ) ^ (floorLog2 v - 53) := by
    have hx : (2 : ℚ) ^ (floorLog2 v - 52) = (2 : ℚ) ^ (floorLog2 v - 53) * 2 := by
      rw [show floorLog2 v - 52 = floorLog2 v - 53 + 1 from by ring,
        zpow_add₀ (two_ne_zero), zpow_one]
    rw [hx]
    ring
  rwa [heq] at h

/-- A positive value below `2^53` lives in a binade of exponent at most
52. -/
theorem floorLog2_le_52 (v : ℚ) (hv : 0 < v) (h : v < (2 : ℚ) ^ (53 : Int)) :
    floorLog2 v ≤ 52 := by
  obtain ⟨hl, _⟩ := floorLog2_spec v hv
  by_contra hc
  have : (2 : ℚ) ^ (53 : Int) ≤ (2 : ℚ) ^ floorLog2 v :=
    zpow_le_zpow_right₀ (by norm_num) (by omega)
  linarith

/-- Binary64 rounding of a positive value in a binade of exponent at most
52 never crosses an integer from below. -/
theorem roundDouble_le_int (v : ℚ) (k : Int) (hv : 0 < v)
    (hlog : floorLog2 v ≤ 52) (h : v ≤ (k : ℚ)) : roundDouble v ≤ (k : ℚ) := by
  rw [roundDouble_of_pos v hv]
  set g := floorLog2 v - 52 with hg
  have hk : (k : ℚ) = ((k * 2 ^ (-g).toNat : Int) : ℚ) * (2 : ℚ) ^ g := by
    push_cast
    rw [mul_assoc,
      show ((2 : ℚ) ^ ((-g).toNat) : ℚ) = (2 : ℚ) ^ (((-g).toNat : Int)) from
        (zpow_natCast 2 _).symm,
      ← zpow_add₀ (two_ne_zero),
      show (((-g).toNat : Int)) + g = 0 from by omega]
    simp
  rw [hk]
  apply roundNearestEven_le_of_le
  rw [← hk]
  exact h

/-- Integers below `2^53` are exactly representable in binary64. -/
theorem roundDouble_int_exact (k : Int) (hk1 : 1 ≤ k) (hk53 : k < 2 ^ 53) :
    roundDouble (k : ℚ) = (k : ℚ) := by
  have hv : (0 : ℚ) < (k : ℚ) := by exact_mod_cast (by omega : (0 : Int) < k)
  rw [roundDouble_of_pos _ hv]
  have hq53 : ((k : ℚ)) < (2 : ℚ) ^ (53 : Int) := by
    rw [show ((53 : Int)) = ((53 : Nat) : Int) from rfl, zpow_natCast]
    exact_mod_cast hk53
  have he52 : floorLog2 (k : ℚ) ≤ 52 := floorLog2_le_52 _ hv hq53
  apply roundNearestEven_exact _ _ (k * 2 ^ (52 - floorLog2 (k : ℚ)).toNat)
  push_cast
  rw [mul_assoc,
    show ((2 : ℚ) ^ ((52 - floorLog2 (k : ℚ)).toNat) : ℚ) =
      (2 : ℚ) ^ (((52 - floorLog2 (k : ℚ)).toNat : Int)) from (zpow_natCast 2 _).symm,
    ← zpow_add₀ (two_ne_zero),
    show (((52 - floorLog2 (k : ℚ)).toNat : Int)) + (floorLog2 (k : ℚ) - 52) = 0 from
      by omega]
  simp

/-- Numeral bridge for `2 ^ 53`. -/
theorem two_zpow_53 : (2 : ℚ) ^ (53 : Int) = 9007199254740992 := by
  rw [show ((53 : Int)) = ((53 : Nat) : Int) from rfl, zpow_natCast]
  norm_num

/-- Numeral bridge for `2 ^ (-53)`. -/
theorem two_zpow_neg53 : (2 : ℚ) ^ (-(53 : Int)) = 1 / 9007199254740992 := by
  rw [zpow_neg, two_zpow_53]
  norm_num

/-- Ceiling of the binary64 rounding of an exact integer quotient with a
numerator below `2^53`: rounding the quotient cannot move it across an
integer, so the ceiling is the exact one. -/
theorem ceil_roundDouble_ratio (t s : Int) (ht1 : 1 ≤ t) (ht53 : t < 2 ^ 53)
    (hs : 1 ≤ s) :
    ⌈roundDouble ((t : ℚ) / (s : ℚ))⌉ = ⌈(t : ℚ) / (s : ℚ)⌉ := by
  have hsq : (0 : ℚ) < (s : ℚ) := by exact_mod_cast (by omega : (0 : Int) < s)
  have htq : (0 : ℚ) < (t : ℚ) := by exact_mod_cast (by omega : (0 : Int) < t)
  set v : ℚ := (t : ℚ) / (s : ℚ) with hvdef
  have hv : 0 < v := div_pos htq hsq
  set k : Int := ⌈v⌉ with hk
  have hk1 : 1 ≤ k := Int.ceil_pos.mpr hv
  have htq53 : (t : ℚ) < (2 : ℚ) ^ (53 : Int) := by
    rw [two_zpow_53]
    exact_mod_cast ht53
  have hv53 : v < (2 : ℚ) ^ (53 : Int) := by
    have hv_le_t : v ≤ (t : ℚ) := div_le_self htq.le (by exact_mod_cast hs)
    linarith
  have he52 : floorLog2 v ≤ 52 := floorLog2_le_52 v hv hv53
  have hup : roundDouble v ≤ (k : ℚ) := roundDouble_le_int v k hv he52 (Int.le_ceil v)
  have hstep1 : ((k : ℚ) - 1) + 1 / (s : ℚ) ≤ v := by
    have hlt : ((k - 1 : Int) : ℚ) < v := Int.lt_ceil.mp (by omega)
    have hks : ((k - 1 : Int) : ℚ) * (s : ℚ) < (t : ℚ) := (lt_div_iff₀ hsq).mp hlt
    have hksInt : (k - 1) * s < t := by exact_mod_cast hks
    have hksInt1 : (k - 1) * s + 1 ≤ t := by omega
    have hqle : (((k - 1) * s + 1 : Int) : ℚ) / (s : ℚ) ≤ (t : ℚ) / (s : ℚ) :=
      (div_le_div_iff_of_pos_right hsq).mpr (by exact_mod_cast hksInt1)
    have hform : ((k : ℚ) - 1) + 1 / (s : ℚ) = (((k - 1) * s + 1 : Int) : ℚ) / (s : ℚ) := by
      rw [eq_div_iff hsq.ne']
      push_cast
      field_simp
    rw [hform, hvdef]
    exact hqle
  have hulp : (2 : ℚ) ^ (floorLog2 v - 53) < 1 / (s : ℚ) := by
    obtain ⟨hl, _⟩ := floorLog2_spec v hv
    have h1 : (2 : ℚ) ^ (floorLog2 v - 53) ≤ v * (2 : ℚ) ^ (-(53 : Int)) := by
      rw [show floorLog2 v - 53 = floorLog2 v + -(53 : Int) from by ring,
        zpow_add₀ (two_ne_zero)]
      exact mul_le_mul_of_nonneg_right hl (zpow_pos (by norm_num) _).le
    have h3 : (t : ℚ) * (2 : ℚ) ^ (-(53 : Int)) < 1 := by
      calc (t : ℚ) * (2 : ℚ) ^ (-(53 : Int)) <
            (2 : ℚ) ^ (53 : Int) * (2 : ℚ) ^ (-(53 : Int)) :=
          mul_lt_mul_of_pos_right htq53 (zpow_pos (by norm_num) _)
      _ = 1 := by
          rw [← zpow_add₀ (two_ne_zero)]
          norm_num
    have h2 : v * (2 : ℚ) ^ (-(53 : Int)) < 1 / (s : ℚ) := by
      have hrew : v * (2 : ℚ) ^ (-(53 : Int)) =
          ((t : ℚ) * (2 : ℚ) ^ (-(53 : Int))) / (s : ℚ) := by
        rw [hvdef]
        ring
      rw [hrew]
      exact (div_lt_div_iff_of_pos_right hsq).mpr h3
    exact lt_of_le_of_lt h1 h2
  have hlo : ((k : ℚ) - 1) < roundDouble v := by
    obtain ⟨herr, _⟩ := roundDouble_err v hv
    linarith
  have hceil_up : ⌈roundDouble v⌉ ≤ k := by
    calc ⌈roundDouble v⌉ ≤ ⌈((k : Int) : ℚ)⌉ := Int.ceil_le_ceil hup
    _ = k := Int.ceil_intCast k
  have hceil_lo : k ≤ ⌈roundDouble v⌉ := by
    have := Int.lt_ceil.mpr (show ((k - 1 : Int) : ℚ) < roundDouble v from by
      push_cast
      linarith)
    omega
  omega

/-- Ceiling of the rounded quotient when the denominator is at least
`2^53` (so it is itself rounded): the quotient stays in `(0, 1]`, so the
ceiling is 1, the exact ceiling. -/
theorem ceil_roundDouble_bigDen (t s : Int) (ht1 : 1 ≤ t) (ht53 : t < 2 ^ 53)
    (hs : 2 ^ 53 ≤ s) :
    ⌈roundDouble ((t : ℚ) / roundDouble (s : ℚ))⌉ = ⌈(t : ℚ) / (s : ℚ)⌉ := by
  have hs0 : (0 : Int) < s := by positivity
  have hsq : (0 : ℚ) < (s : ℚ) := by exact_mod_cast hs0
  have htq : (0 : ℚ) < (t : ℚ) := by exact_mod_cast (by omega : (0 : Int) < t)
  have hts_int : t ≤ s := by
    have h1 : (2 : Int) ^ 53 ≤ s := hs
    omega
  have hts : (t : ℚ) ≤ (s : ℚ) := by exact_mod_cast hts_int
  have hrhs : ⌈(t : ℚ) / (s : ℚ)⌉ = 1 := by
    have h1 : 0 < (t : ℚ) / (s : ℚ) := div_pos htq hsq
    have h2 : (t : ℚ) / (s : ℚ) ≤ 1 := div_le_one_of_le₀ hts hsq.le
    have hup : ⌈(t : ℚ) / (s : ℚ)⌉ ≤ 1 := by
      calc ⌈(t : ℚ) / (s : ℚ)⌉ ≤ ⌈(1 : ℚ)⌉ := Int.ceil_le_ceil h2
      _ = 1 := by norm_num
    have hlo : 0 < ⌈(t : ℚ) / (s : ℚ)⌉ := Int.ceil_pos.mpr h1
    omega
  rw [hrhs]
  have hbr : ((2 ^ 53 : Int) : ℚ) = (2 : ℚ) ^ (53 : Int) := by
    rw [two_zpow_53]
    norm_num
  have hsq53 : (2 : ℚ) ^ (53 : Int) ≤ (s : ℚ) := by
    rw [← hbr]
    exact_mod_cast hs
  have hes : (53 : Int) ≤ floorLog2 (s : ℚ) := by
    obtain ⟨_, hsu⟩ := floorLog2_spec (s : ℚ) hsq
    by_contra hc
    have hmono : (2 : ℚ) ^ (floorLog2 (s : ℚ) + 1) ≤ (2 : ℚ) ^ (53 : Int) :=
      zpow_le_zpow_right₀ (by norm_num) (by omega)
    linarith
  have hulp_s : (2 : ℚ) ^ (floorLog2 (s : ℚ) - 53) ≤ (s : ℚ) * (2 : ℚ) ^ (-(53 : Int)) := by
    obtain ⟨hsl, _⟩ := floorLog2_spec (s : ℚ) hsq
    rw [show floorLog2 (s : ℚ) - 53 = floorLog2 (s : ℚ) + -(53 : Int) from by ring,
      zpow_add₀ (two_ne_zero)]
    exact mul_le_mul_of_nonneg_right hsl (zpow_pos (by norm_num) _).le
  set y := roundDouble (s : ℚ) with hy
  have hy_ge : (t : ℚ) ≤ y := by
    obtain ⟨hel, _⟩ := roundDouble_err (s : ℚ) hsq
    have h1 : (s : ℚ) - (s : ℚ) * (2 : ℚ) ^ (-(53 : Int)) ≤ y := by linarith
    have h2 : ((2 ^ 53 : Int) : ℚ) ≤ (s : ℚ) := by exact_mod_cast hs
    have hom : (0 : ℚ) < 1 - (2 : ℚ) ^ (-(53 : Int)) := by
      rw [two_zpow_neg53]
      norm_num
    have h3 : ((2 ^ 53 : Int) : ℚ) * (1 - (2 : ℚ) ^ (-(53 : Int))) ≤
        (s : ℚ) * (1 - (2 : ℚ) ^ (-(53 : Int))) :=
      mul_le_mul_of_nonneg_right h2 hom.le
    have h4 : ((2 ^ 53 : Int) : ℚ) * (1 - (2 : ℚ) ^ (-(53 : Int))) =
        ((2 ^ 53 : Int) : ℚ) - 1 := by
      rw [hbr, two_zpow_53, two_zpow_neg53]
      norm_num
    have h5 : (t : ℚ) ≤ ((2 ^ 53 : Int) : ℚ) - 1 := by
      exact_mod_cast (by omega : t ≤ 2 ^ 53 - 1)
    nlinarith [h1, h3, h4, h5]
  have hy_pos : 0 < y := roundDouble_pos _ hsq
  set w := (t : ℚ) / y with hw
  have hw_pos : 0 < w := div_pos htq hy_pos
  have hw_le1 : w ≤ 1 := div_le_one_of_le₀ hy_ge hy_pos.le
  have hw53 : w < (2 : ℚ) ^ (53 : Int) := by
    rw [two_zpow_53]
    linarith
  have hlogw : floorLog2 w ≤ 52 := floorLog2_le_52 w hw_pos hw53
  have hle1 : roundDouble w ≤ ((1 : Int) : ℚ) :=
    roundDouble_le_int w 1 hw_pos hlogw (by push_cast; exact hw_le1)
  have hpos' : 0 < roundDouble w := roundDouble_pos w hw_pos
  have hup : ⌈roundDouble w⌉ ≤ 1 := by
    calc ⌈roundDouble w⌉ ≤ ⌈((1 : Int) : ℚ)⌉ := Int.ceil_le_ceil hle1
    _ = 1 := Int.ceil_intCast 1
  have hlo : 0 < ⌈roundDouble w⌉ := Int.ceil_pos.mpr hpos'
  omega

/-- The full `LastPage` pipeline agrees with exact ceiling division for
`totalRecords` below `2^53`. -/
theorem goLastPage_eq (t s : Int) (ht1 : 1 ≤ t) (ht53 : t < 2 ^ 53) (hs : 1 ≤ s) :
    ⌈float64Div (roundDouble (t : ℚ)) (roundDouble (s : ℚ))⌉ = (t + s - 1) / s := by
  have hxt : roundDouble (t : ℚ) = (t : ℚ) := roundDouble_int_exact t ht1 ht53
  rw [float64Div, hxt]
  by_cases hsbig : s < 2 ^ 53
  · rw [roundDouble_int_exact s hs hsbig, ceil_roundDouble_ratio t s ht1 ht53 hs,
      ceil_ratdiv_eq t s ht1 hs]
  · rw [ceil_roundDouble_bigDen t s ht1 ht53 (by omega), ceil_ratdiv_eq t s ht1 hs]

/-! ### Digit-string lemmas for the Runtime codec -/

/-- `digitCh` produces a decimal digit character. -/
theorem charIsDigit_digitCh (d : Nat) (h : d < 10) : charIsDigit (digitCh d) = true := by
  interval_cases d <;> decide

/-- Code point of a digit character. -/
theorem toNat_digitCh (d : Nat) (h : d < 10) : (digitCh d).toNat = 48 + d := by
  interval_cases d <;> rfl

/-- With sufficient fuel the digit string is nonempty. -/
theorem natToCharsAux_ne_nil (fuel n : Nat) (h : n < fuel) : natToCharsAux fuel n ≠ [] := by
  induction fuel generalizing n with
  | zero => omega
  | succ f _ =>
    by_cases h10 : n < 10
    · simp [natToCharsAux, h10]
    · simp [natToCharsAux, h10]

/-- With sufficient fuel every character of the digit string is a digit. -/
theorem natToCharsAux_all_digits (fuel n : Nat) (h : n < fuel) :
    ∀ c ∈ natToCharsAux fuel n, charIsDigit c = true := by
  induction fuel generalizing n with
  | zero => omega
  | succ f ih =>
    by_cases h10 : n < 10
    · simp only [natToCharsAux, if_pos h10]
      intro c hc
      rcases List.mem_singleton.mp hc with rfl
      exact charIsDigit_digitCh n h10
    · simp only [natToCharsAux, if_neg h10]
      intro c hc
      rcases List.mem_append.mp hc with hc' | hc'
      · have hdiv : n / 10 < f := by
          have := Nat.div_lt_self (by omega : 0 < n) (by omega : 1 < 10)
          omega
        exact ih (n / 10) hdiv c hc'
      · rcases List.mem_singleton.mp hc' with rfl
        exact charIsDigit_digitCh _ (Nat.mod_lt _ (by omega))

/-- With sufficient fuel the digit string folds back to its value (with
the accumulator scaled by the number of digits). -/
theorem natToCharsAux_foldl (fuel n : Nat) (h : n < fuel) (a : Nat) :
    (natToCharsAux fuel n).foldl (fun acc c => 10 * acc + (c.toNat - 48)) a =
      a * 10 ^ (natToCharsAux fuel n).length + n := by
  induction fuel generalizing n a with
  | zero => omega
  | succ f ih =>
    by_cases h10 : n < 10
    · simp only [natToCharsAux, if_pos h10, List.foldl_cons, List.foldl_nil,
        List.length_singleton]
      rw [toNat_digitCh n h10]
      ring_nf
      omega
    · simp only [natToCharsAux, if_neg h10, List.foldl_append, List.foldl_cons,
        List.foldl_nil, List.length_append, List.length_singleton]
      have hdiv : n / 10 < f := by
        have := Nat.div_lt_self (by omega : 0 < n) (by omega : 1 < 10)
        omega
      rw [ih (n / 10) hdiv a, toNat_digitCh _ (Nat.mod_lt _ (by omega))]
      have hms : 48 + n % 10 - 48 = n % 10 := by omega
      rw [hms]
      have hpow : a * 10 ^ ((natToCharsAux f (n / 10)).length + 1) =
          (a * 10 ^ (natToCharsAux f (n / 10)).length) * 10 := by ring
      rw [hpow]
      have := Nat.div_add_mod n 10
      omega

/-- The digit string of a natural number is nonempty. -/
theorem natToChars_ne_nil (n : Nat) : natToChars n ≠ [] :=
  natToCharsAux_ne_nil (n + 1) n (by omega)

/-- Every character of the digit string is a digit. -/
theorem natToChars_all_digits (n : Nat) : ∀ c ∈ natToChars n, charIsDigit c = true :=
  natToCharsAux_all_digits (n + 1) n (by omega)

/-- Parsing the digit string of `n` recovers `n`. -/
theorem parseDigits_natToChars (n : Nat) : parseDigits (natToChars n) = some n := by
  have hne := natToChars_ne_nil n
  have hall : (natToChars n).all charIsDigit = true :=
    List.all_eq_true.mpr (natToChars_all_digits n)
  have hfold := natToCharsAux_foldl (n + 1) n (by omega) 0
  simp only [parseDigits, if_neg hne, hall, if_pos rfl, if_true]
  rw [show (natToChars n).foldl (fun acc c => 10 * acc + (c.toNat - 48)) 0 =
      (natToCharsAux (n + 1) n).foldl (fun acc c => 10 * acc + (c.toNat - 48)) 0 from rfl]
  rw [hfold]
  simp

/-- A digit character is none of the structural characters the codec
treats specially. -/
theorem charIsDigit_excludes (c : Char) (h : charIsDigit c = true) :
    c ≠ '+' ∧ c ≠ '-' ∧ c ≠ ' ' ∧ c ≠ dquote ∧ c ≠ bslash ∧ c ≠ nlChar := by
  refine ⟨?_, ?_, ?_, ?_, ?_, ?_⟩ <;>
    (intro hc; subst hc; exact absurd h (by decide))

/-- Parsing the `%d` rendering of a 32-bit integer recovers it. -/
theorem parseInt32_intToChars (r : Int) (h1 : -2147483648 ≤ r) (h2 : r < 2147483648) :
    parseInt32 (intToChars r) = some r := by
  by_cases hneg : r < 0
  · have hcast : (((-r).toNat : Int)) = -r := Int.toNat_of_nonneg (by omega)
    simp only [intToChars, if_pos hneg, parseInt32,
      show (('-' : Char) = '+') = False by simp,
      show (('-' : Char) = '-') = True by simp, if_false, if_true]
    rw [parseDigits_natToChars, Option.some_bind]
    rw [if_pos (by rw [hcast]; omega)]
    rw [hcast]
    norm_num
  · have hnn : 0 ≤ r := by omega
    have hcast : ((r.toNat : Int)) = r := Int.toNat_of_nonneg hnn
    rcases hdig : natToChars r.toNat with _ | ⟨c, t⟩
    · exact absurd hdig (natToChars_ne_nil _)
    · have hc : charIsDigit c = true := by
        have hx := natToChars_all_digits r.toNat
        rw [hdig] at hx
        exact hx c (by simp)
      obtain ⟨hp, hm, _, _, _, _⟩ := charIsDigit_excludes c hc
      simp only [intToChars, if_neg hneg, hdig, parseInt32, if_neg hp, if_neg hm]
      rw [← hdig, parseDigits_natToChars, Option.some_bind]
      rw [if_pos (by rw [hcast]; omega)]
      rw [hcast]

/-- Stepping the fueled escape loop at the terminating delimiter. -/
theorem unqLoopF_term (q : Char) (fuel : Nat) (rest : List Char) :
    unqLoopF q (fuel + 1) (q :: rest) = some ([], rest) := by
  simp only [unqLoopF]
  simp

/-- Stepping the fueled escape loop over an ordinary character. -/
theorem unqLoopF_plain (q c : Char) (fuel : Nat) (cs : List Char)
    (hcq : c ≠ q) (hcn : c ≠ nlChar) (hcb : c ≠ bslash) :
    unqLoopF q (fuel + 1) (c :: cs) =
      (unqLoopF q fuel cs).map (fun p => (c :: p.1, p.2)) := by
  simp only [unqLoopF]
  rw [if_neg hcq, if_neg hcn, if_neg hcb]

/-- With enough fuel, the escape loop on escape-free content stops at the
delimiter and returns the content verbatim. -/
theorem unqLoopF_clean (q : Char) (content rest : List Char) (fuel : Nat)
    (hfuel : content.length < fuel)
    (h : ∀ c ∈ content, c ≠ q ∧ c ≠ nlChar ∧ c ≠ bslash) :
    unqLoopF q fuel (content ++ q :: rest) = some (content, rest) := by
  induction content generalizing fuel with
  | nil =>
    obtain ⟨f, rfl⟩ : ∃ f, fuel = f + 1 := ⟨fuel - 1, by omega⟩
    exact unqLoopF_term q f rest
  | cons c cs ih =>
    obtain ⟨f, rfl⟩ : ∃ f, fuel = f + 1 := ⟨fuel - 1, by omega⟩
    obtain ⟨hcq, hcn, hcb⟩ := h c (by simp)
    have hrest : ∀ x ∈ cs, x ≠ q ∧ x ≠ nlChar ∧ x ≠ bslash :=
      fun x hx => h x (by simp [hx])
    have hlen : cs.length < f := by
      have := hfuel
      simp only [List.length_cons] at this
      omega
    rw [List.cons_append, unqLoopF_plain q c f _ hcq hcn hcb, ih f hlen hrest]
    rfl

/-- The escape loop on escape-free content stops at the delimiter and
returns the content verbatim. -/
theorem unqLoop_clean (q : Char) (content rest : List Char)
    (h : ∀ c ∈ content, c ≠ q ∧ c ≠ nlChar ∧ c ≠ bslash) :
    unqLoop q (content ++ q :: rest) = some (content, rest) := by
  have hlen : content.length < (content ++ q :: rest).length := by
    simp
  exact unqLoopF_clean q content rest _ hlen h

/-- `goUnquote` on a double-quoted string of at least two characters runs
the escape loop and requires an empty remainder. -/
theorem goUnquote_dquote (x : Char) (xs : List Char) :
    goUnquote (dquote :: x :: xs) =
      (match unqLoop dquote (x :: xs) with
        | some (out, []) => some out
        | _ => none) := rfl

/-- Unquoting a plainly quoted escape-free payload returns the payload. -/
theorem goUnquote_goQuoteSimple (content : List Char)
    (h : ∀ c ∈ content, c ≠ dquote ∧ c ≠ nlChar ∧ c ≠ bslash) :
    goUnquote (goQuoteSimple content) = some content := by
  have hloop := unqLoop_clean dquote content [] h
  cases content with
  | nil => decide
  | cons a as =>
    have hshape : goQuoteSimple (a :: as) = dquote :: a :: (as ++ [dquote]) := by
      simp [goQuoteSimple]
    rw [hshape, goUnquote_dquote]
    rw [show a :: (as ++ [dquote]) = (a :: as) ++ dquote :: [] from by simp]
    rw [hloop]

/-- `splitSpace` never returns an empty list of parts. -/
theorem splitSpace_ne_nil (s : List Char) : splitSpace s ≠ [] := by
  cases s with
  | nil => simp [splitSpace]
  | cons c cs =>
    by_cases hc : c = ' '
    · simp [splitSpace, hc]
    · simp only [splitSpace, if_neg hc]
      rcases h : splitSpace cs with _ | ⟨hd, tl⟩ <;> simp

/-- Unfolding `splitSpace` at a non-space character. -/
theorem splitSpace_cons_nonspace (c : Char) (cs : List Char) (hc : c ≠ ' ') :
    splitSpace (c :: cs) =
      (match splitSpace cs with
        | [] => [[c]]
        | h :: t => (c :: h) :: t) := by
  simp only [splitSpace, if_neg hc]

/-- Splitting after a space-free part peels it off. -/
theorem splitSpace_append (w r : List Char) (hw : ' ' ∉ w) :
    splitSpace (w ++ ' ' :: r) = w :: splitSpace r := by
  induction w with
  | nil => simp [splitSpace]
  | cons c cs ih =>
    have hc : c ≠ ' ' := fun hc => hw (by simp [hc])
    have hcs : ' ' ∉ cs := fun h => hw (by simp [h])
    rw [List.cons_append, splitSpace_cons_nonspace c _ hc, ih hcs]

/-- A one-part split means the string has no spaces and is the part. -/
theorem splitSpace_eq_one (s p : List Char) (h : splitSpace s = [p]) :
    s = p ∧ ' ' ∉ p := by
  induction s generalizing p with
  | nil =>
    simp only [splitSpace] at h
    rcases List.cons_eq_cons.mp h with ⟨hp, _⟩
    subst hp
    simp
  | cons c cs ih =>
    by_cases hc : c = ' '
    · rw [hc] at h
      simp only [splitSpace, if_pos rfl] at h
      rcases List.cons_eq_cons.mp h with ⟨_, htl⟩
      exact absurd htl.symm (Ne.symm (splitSpace_ne_nil cs))
    · simp only [splitSpace, if_neg hc] at h
      rcases hcs : splitSpace cs with _ | ⟨hd, tl⟩
      · exact absurd hcs (splitSpace_ne_nil cs)
      · rw [hcs] at h
        rcases List.cons_eq_cons.mp h with ⟨hp, htl⟩
        subst htl
        obtain ⟨hcs', hsp⟩ := ih hd hcs
        subst hcs'
        subst hp
        refine ⟨rfl, ?_⟩
        intro hmem
        rcases List.mem_cons.mp hmem with h' | h'
        · exact hc h'.symm
        · exact hsp h'

/-- A two-part split reconstructs the string around a single space. -/
theorem splitSpace_eq_two (s p₀ p₁ : List Char) (h : splitSpace s = [p₀, p₁]) :
    s = p₀ ++ ' ' :: p₁ ∧ ' ' ∉ p₀ ∧ ' ' ∉ p₁ := by
  induction s generalizing p₀ p₁ with
  | nil =>
    simp only [splitSpace] at h
    exact absurd (List.cons_eq_cons.mp h).2 (by simp)
  | cons c cs ih =>
    by_cases hc : c = ' '
    · subst hc
      simp only [splitSpace, if_pos rfl] at h
      rcases List.cons_eq_cons.mp h with ⟨hp, htl⟩
      obtain ⟨hcs, hsp⟩ := splitSpace_eq_one cs p₁ htl
      subst hcs
      subst hp
      exact ⟨by simp, by simp, hsp⟩
    · simp only [splitSpace, if_neg hc] at h
      rcases hcs : splitSpace cs with _ | ⟨hd, tl⟩
      · exact absurd hcs (splitSpace_ne_nil cs)
      · rw [hcs] at h
        rcases List.cons_eq_cons.mp h with ⟨hp, htl⟩
        rw [htl] at hcs
        obtain ⟨hcs', hsp0, hsp1⟩ := ih hd p₁ hcs
        subst hcs'
        subst hp
        refine ⟨by simp, ?_, hsp1⟩
        intro hmem
        rcases List.mem_cons.mp hmem with h' | h'
        · exact hc h'.symm
        · exact hsp0 h'

/-- A successful digit parse means every character was a digit. -/
theorem parseDigits_all_digits (cs : List Char) (u : Nat) (h : parseDigits cs = some u) :
    ∀ c ∈ cs, charIsDigit c = true := by
  simp only [parseDigits] at h
  split_ifs at h with h1 h2
  · exact List.all_eq_true.mp h2

/-- Every character of a successfully parsed integer is a digit or a
sign. -/
theorem parseInt32_chars (w : List Char) (n : Int) (h : parseInt32 w = some n) :
    ∀ c ∈ w, charIsDigit c = true ∨ c = '+' ∨ c = '-' := by
  cases w with
  | nil => simp [parseInt32] at h
  | cons c rest =>
    simp only [parseInt32] at h
    intro x hx
    by_cases h1 : c = '+'
    · rw [if_pos h1] at h
      rcases hpd : parseDigits rest with _ | u
      · rw [hpd] at h
        simp at h
      · have hall := parseDigits_all_digits rest u hpd
        rcases List.mem_cons.mp hx with rfl | hx'
        · exact Or.inr (Or.inl h1)
        · exact Or.inl (hall x hx')
    · rw [if_neg h1] at h
      by_cases h2 : c = '-'
      · rw [if_pos h2] at h
        rcases hpd : parseDigits rest with _ | u
        · rw [hpd] at h
          simp at h
        · have hall := parseDigits_all_digits rest u hpd
          rcases List.mem_cons.mp hx with rfl | hx'
          · exact Or.inr (Or.inr h2)
          · exact Or.inl (hall x hx')
      · rw [if_neg h2] at h
        rcases hpd : parseDigits (c :: rest) with _ | u
        · rw [hpd] at h
          simp at h
        · exact Or.inl (parseDigits_all_digits _ u hpd x hx)

/-- A successfully parsed integer string contains no space. -/
theorem parseInt32_no_space (w : List Char) (n : Int) (h : parseInt32 w = some n) :
    ' ' ∉ w := by
  intro hmem
  rcases parseInt32_chars w n h ' ' hmem with hd | hp | hm
  · exact absurd hd (by decide)
  · exact absurd hp (by decide)
  · exact absurd hm (by decide)

/-- Every character of `%d` output is a digit or the minus sign. -/
theorem intToChars_chars (r : Int) :
    ∀ c ∈ intToChars r, charIsDigit c = true ∨ c = '-' := by
  intro c hc
  by_cases hneg : r < 0
  · simp only [intToChars, if_pos hneg] at hc
    rcases List.mem_cons.mp hc with rfl | hc'
    · exact Or.inr rfl
    · exact Or.inl (natToChars_all_digits _ c hc')
  · simp only [intToChars, if_neg hneg] at hc
    exact Or.inl (natToChars_all_digits _ c hc)

/-- `%d` output is never empty. -/
theorem intToChars_ne_nil (r : Int) : intToChars r ≠ [] := by
  by_cases hneg : r < 0
  · simp [intToChars, if_pos hneg]
  · simp only [intToChars, if_neg hneg]
    exact natToChars_ne_nil _

/-- `%d` output contains no space. -/
theorem intToChars_no_space (r : Int) : ' ' ∉ intToChars r := by
  intro h
  rcases intToChars_chars r ' ' h with hd | hm
  · exact absurd hd (by decide)
  · exact absurd hm (by decide)

/-- The marshalled payload `<digits> mins` is free of quote, newline and
backslash characters. -/
theorem marshalContent_clean (r : Int) :
    ∀ c ∈ intToChars r ++ ' ' :: "mins".data,
      c ≠ dquote ∧ c ≠ nlChar ∧ c ≠ bslash := by
  intro c hc
  rcases List.mem_append.mp hc with hc' | hc'
  · rcases intToChars_chars r c hc' with hd | rfl
    · obtain ⟨_, _, _, hq, hb, hn⟩ := charIsDigit_excludes c hd
      exact ⟨hq, hn, hb⟩
    · exact ⟨by decide, by decide, by decide⟩
  · have : c = ' ' ∨ c = 'm' ∨ c = 'i' ∨ c = 'n' ∨ c = 's' := by
      simpa using hc'
    rcases this with rfl | rfl | rfl | rfl | rfl <;>
      exact ⟨by decide, by decide, by decide⟩

/-- Reduction of the unmarshaller once the unquoted payload is known. -/
theorem unmarshalRuntime_unquoted (input str : List Char)
    (h : goUnquote input = some str) :
    unmarshalRuntime input =
      (match splitSpace str with
        | [p₀, p₁] => if p₁ = "mins".data then parseInt32 p₀ else none
        | _ => none) := by
  simp only [unmarshalRuntime, h]

/-- Round trip: unmarshalling the marshalled form of a 32-bit value
recovers it. -/
theorem unmarshal_marshal (r : Int) (h1 : -2147483648 ≤ r) (h2 : r < 2147483648) :
    unmarshalRuntime (marshalRuntime r) = some r := by
  have hunq : goUnquote (marshalRuntime r) =
      some (intToChars r ++ ' ' :: "mins".data) :=
    goUnquote_goQuoteSimple _ (marshalContent_clean r)
  rw [unmarshalRuntime_unquoted _ _ hunq,
    splitSpace_append _ _ (intToChars_no_space r),
    show splitSpace "mins".data = ["mins".data] from by decide]
  show (if "mins".data = "mins".data then parseInt32 (intToChars r) else none) = some r
  rw [if_pos rfl]
  exact parseInt32_intToChars r h1 h2

/-- Acceptance characterization of the unmarshaller on escape-free
double-quoted inputs. -/
theorem unmarshal_simple_iff (s : List Char) (n : Int)
    (hs : ∀ c ∈ s, c ≠ dquote ∧ c ≠ nlChar ∧ c ≠ bslash) :
    unmarshalRuntime (goQuoteSimple s) = some n ↔
      ∃ w, s = w ++ ' ' :: "mins".data ∧ parseInt32 w = some n := by
  have hunq : goUnquote (goQuoteSimple s) = some s := goUnquote_goQuoteSimple s hs
  rw [unmarshalRuntime_unquoted _ _ hunq]
  constructor
  · intro h
    rcases hsp : splitSpace s with _ | ⟨p₀, tl⟩
    · rw [hsp] at h
      exact absurd h (by simp)
    rcases tl with _ | ⟨p₁, tl₂⟩
    · rw [hsp] at h
      exact absurd h (by simp)
    rcases tl₂ with _ | ⟨p₂, tl₃⟩
    · rw [hsp] at h
      have h' : (if p₁ = "mins".data then parseInt32 p₀ else none) = some n := h
      by_cases hm : p₁ = "mins".data
      · rw [if_pos hm] at h'
        obtain ⟨hs_eq, _, _⟩ := splitSpace_eq_two s p₀ p₁ hsp
        exact ⟨p₀, by rw [hs_eq, hm], h'⟩
      · rw [if_neg hm] at h'
        exact absurd h' (by simp)
    · rw [hsp] at h
      exact absurd h (by simp)
  · rintro ⟨w, rfl, hw⟩
    have hnsp : ' ' ∉ w := parseInt32_no_space w n hw
    have hsp : splitSpace (w ++ ' ' :: "mins".data) = [w, "mins".data] := by
      rw [splitSpace_append _ _ hnsp,
        show splitSpace "mins".data = ["mins".data] from by decide]
    rw [hsp]
    show (if "mins".data = "mins".data then parseInt32 w else none) = some n
    rw [if_pos rfl]
    exact hw

/-- C8 counterexample: `UnmarshalJSON` does not reject every input outside
the canonical quoted `"<int32> mins"` form — the quoted payload
`"+1 mins"` (an explicit plus sign, which `%d` never prints) is accepted
and decodes to 1, yet it is not the marshalled form of any 32-bit
value. -/
theorem C8_runtime_counterexample :
    unmarshalRuntime (goQuoteSimple ('+' :: "1 mins".data)) = some 1 ∧
    ¬ isCanonicalRuntimeJSON (goQuoteSimple ('+' :: "1 mins".data)) := by
  constructor
  · decide
  · rintro ⟨n, _, _, heq⟩
    have htail : ('+' :: "1 mins".data) ++ [dquote] =
        (intToChars n ++ ' ' :: "mins".data) ++ [dquote] :=
      (List.cons_eq_cons.mp heq).2
    have hAB : '+' :: "1 mins".data = intToChars n ++ ' ' :: "mins".data :=
      List.append_cancel_right htail
    rcases hic : intToChars n with _ | ⟨c, t⟩
    · exact absurd hic (intToChars_ne_nil n)
    · rw [hic, List.cons_append] at hAB
      have hplus : c = '+' := ((List.cons_eq_cons.mp hAB.symm).1)
      have hmem : c ∈ intToChars n := by
        rw [hic]
        simp
      rcases intToChars_chars n c hmem with hd | hm
      · rw [hplus] at hd
        exact absurd hd (by decide)
      · rw [hplus] at hm
        exact absurd hm (by decide)

/-- C8 amended: `MarshalJSON` and `UnmarshalJSON` satisfy round-trip
identity on every 32-bit Runtime value, and on escape-free double-quoted
inputs `UnmarshalJSON` succeeds exactly when the payload is
`<w> mins` with `w` accepted by `strconv.ParseInt(_, 10, 32)` — which,
beyond the canonical `%d` forms, also admits an explicit leading `+` and
leading zeros; all other such inputs yield `ErrInvalidRuntimeFormat`. -/
theorem C8_runtime_roundtrip_amended :
    (∀ r : Int, -2147483648 ≤ r → r < 2147483648 →
      unmarshalRuntime (marshalRuntime r) = some r) ∧
    (∀ (s : List Char) (n : Int),
      (∀ c ∈ s, c ≠ dquote ∧ c ≠ nlChar ∧ c ≠ bslash) →
      (unmarshalRuntime (goQuoteSimple s) = some n ↔
        ∃ w, s = w ++ ' ' :: "mins".data ∧ parseInt32 w = some n)) :=
  ⟨unmarshal_marshal, unmarshal_simple_iff⟩

/-- Witness for C8: the round trip at 102, and the acceptance
characterization at the payload `7 mins`. -/
theorem C8_runtime_roundtrip_amended_witness :
    unmarshalRuntime (marshalRuntime 102) = some 102 ∧
    (unmarshalRuntime (goQuoteSimple "7 mins".data) = some 7 ↔
      ∃ w, "7 mins".data = w ++ ' ' :: "mins".data ∧ parseInt32 w = some 7) :=
  ⟨C8_runtime_roundtrip_amended.1 102 (by norm_num) (by norm_num),
    C8_runtime_roundtrip_amended.2 "7 mins".data 7 (by decide)⟩

/-! ### C10: pagination metadata (src/internal/data/filters.go calculateMetaData) -/

/-- Evaluation rule for `roundNearestEven` at an exact tie with an even
floor: round half to even keeps the floor. -/
theorem roundNearestEven_tie_even (v : ℚ) (g n : Int)
    (hfloor : ⌊v * (2 : ℚ) ^ (-g)⌋ = n)
    (htie : v * (2 : ℚ) ^ (-g) - (n : ℚ) = 1 / 2)
    (heven : n % 2 = 0) :
    roundNearestEven v g = (n : ℚ) * (2 : ℚ) ^ g := by
  simp only [roundNearestEven, hfloor]
  rw [htie]
  norm_num [heven]

/-- `2^53 + 1` is an exact tie between the adjacent binary64 values
`2^53` and `2^53 + 2`; round half to even lands on `2^53`. -/
theorem roundDouble_at_succ53 :
    roundDouble (9007199254740993 : ℚ) = 9007199254740992 := by
  have hpos : (0 : ℚ) < 9007199254740993 := by norm_num
  have h54 : (2 : ℚ) ^ ((53 : Int) + 1) = 18014398509481984 := by
    rw [show (53 : Int) + 1 = ((54 : Nat) : Int) from rfl, zpow_natCast]
    norm_num
  have hfl : floorLog2 (9007199254740993 : ℚ) = 53 := by
    apply floorLog2_eq_of
    · norm_num [two_zpow_53]
    · norm_num [h54]
  rw [roundDouble_of_pos _ hpos, hfl, show (53 : Int) - 52 = 1 from by norm_num]
  have hsval : (9007199254740993 : ℚ) * (2 : ℚ) ^ (-(1 : Int)) = 9007199254740993 / 2 := by
    rw [zpow_neg, zpow_one]
    ring
  have hfloor : ⌊(9007199254740993 : ℚ) * (2 : ℚ) ^ (-(1 : Int))⌋ = 4503599627370496 := by
    rw [hsval, Int.floor_eq_iff]
    constructor
    · push_cast
      norm_num
    · push_cast
      norm_num
  have htie : (9007199254740993 : ℚ) * (2 : ℚ) ^ (-(1 : Int)) -
      ((4503599627370496 : Int) : ℚ) = 1 / 2 := by
    rw [hsval]
    push_cast
    norm_num
  rw [roundNearestEven_tie_even _ 1 4503599627370496 hfloor htie (by norm_num), zpow_one]
  push_cast
  norm_num

/-- `2^53` is exactly representable in binary64 (as `2^52 · 2^1`). -/
theorem roundDouble_at_2_53 :
    roundDouble (9007199254740992 : ℚ) = 9007199254740992 := by
  have hpos : (0 : ℚ) < 9007199254740992 := by norm_num
  have h54 : (2 : ℚ) ^ ((53 : Int) + 1) = 18014398509481984 := by
    rw [show (53 : Int) + 1 = ((54 : Nat) : Int) from rfl, zpow_natCast]
    norm_num
  have hfl : floorLog2 (9007199254740992 : ℚ) = 53 := by
    apply floorLog2_eq_of
    · norm_num [two_zpow_53]
    · norm_num [h54]
  rw [roundDouble_of_pos _ hpos, hfl, show (53 : Int) - 52 = 1 from by norm_num]
  apply roundNearestEven_exact _ _ 4503599627370496
  rw [zpow_one]
  push_cast
  norm_num

/-- C10 counterexample: at `totalRecords = 2^53 + 1` and `pageSize = 1`
the binary64 pipeline in `calculateMetaData` returns
`LastPage = 2^53 = 9007199254740992`, not the exact ceiling
`⌈totalRecords / pageSize⌉ = 2^53 + 1`: `float64(totalRecords)` already
rounds the odd integer `2^53 + 1` down to `2^53`. -/
theorem C10_float_ceiling_counterexample :
    (calculateMetaData 9007199254740993 7 1).lastPage ≠
      ⌈((9007199254740993 : Int) : ℚ) / ((1 : Int) : ℚ)⌉ := by
  have hT : roundDouble ((9007199254740993 : Int) : ℚ) = 9007199254740992 := by
    rw [show (((9007199254740993 : Int) : ℚ)) = (9007199254740993 : ℚ) from by
      push_cast
      ring]
    exact roundDouble_at_succ53
  have h1 : roundDouble ((1 : Int) : ℚ) = ((1 : Int) : ℚ) :=
    roundDouble_int_exact 1 (by norm_num) (by norm_num)
  have hL : (calculateMetaData 9007199254740993 7 1).lastPage = 9007199254740992 := by
    simp only [calculateMetaData,
      if_neg (show ¬((9007199254740993 : Int) = 0) from by norm_num)]
    rw [hT, h1]
    simp only [float64Div]
    rw [show ((9007199254740992 : ℚ) / ((1 : Int) : ℚ)) = (9007199254740992 : ℚ) from by
      push_cast
      norm_num]
    rw [roundDouble_at_2_53]
    rw [show ((9007199254740992 : ℚ)) = (((9007199254740992 : Int)) : ℚ) from by
      push_cast
      ring]
    rw [Int.ceil_intCast]
  have hR : ⌈((9007199254740993 : Int) : ℚ) / ((1 : Int) : ℚ)⌉ = 9007199254740993 := by
    rw [show (((1 : Int) : ℚ)) = (1 : ℚ) from by push_cast; ring, div_one, Int.ceil_intCast]
  rw [hL, hR]
  norm_num

/-- C10 (amended with a range restriction): for `0 ≤ totalRecords < 2^53`
and `pageSize ≥ 1`, `calculateMetaData` returns the zero `Metadata` when
`totalRecords = 0` and otherwise copies the inputs with `FirstPage = 1`
and `LastPage` the exact ceiling of `totalRecords / pageSize` — in this
range the binary64 conversions of both integers are exact and rounding
the quotient never moves it across an integer. -/
theorem C10_calculateMetaData_amended (totalRecords page pageSize : Int)
    (h0 : 0 ≤ totalRecords) (h53 : totalRecords < 2 ^ 53) (hps : 1 ≤ pageSize) :
    (totalRecords = 0 →
      calculateMetaData totalRecords page pageSize =
        { currentPage := 0, pageSize := 0, firstPage := 0, lastPage := 0,
          totalRecords := 0 }) ∧
    (totalRecords ≠ 0 →
      calculateMetaData totalRecords page pageSize =
        { currentPage := page, pageSize := pageSize, firstPage := 1,
          lastPage := (totalRecords + pageSize - 1) / pageSize,
          totalRecords := totalRecords }) := by
  constructor
  · intro hz
    simp [calculateMetaData, hz]
  · intro hnz
    have ht1 : 1 ≤ totalRecords := by omega
    simp only [calculateMetaData, if_neg hnz]
    rw [goLastPage_eq totalRecords pageSize ht1 h53 hps]

/-- Witness for the amended C10 theorem at `(12, 7, 5)`:
`LastPage = ⌈12/5⌉ = 3`. -/
theorem C10_calculateMetaData_amended_witness :
    (0 : Int) ≤ 12 ∧ (12 : Int) < 2 ^ 53 ∧ (1 : Int) ≤ 5 ∧ (12 : Int) ≠ 0 ∧
    calculateMetaData 12 7 5 =
      { currentPage := 7, pageSize := 5, firstPage := 1, lastPage := 3,
        totalRecords := 12 } := by
  refine ⟨by norm_num, by norm_num, by norm_num, by norm_num, ?_⟩
  have h := (C10_calculateMetaData_amended 12 7 5 (by norm_num) (by norm_num)
    (by norm_num)).2 (by norm_num)
  rw [h]
  decide

end Greenlight
